import Mathlib

/-!
Verification development for the cross-sectional property engine of the
`section_properties` repository (`src/utils/sectionCalculations.ts`).

The TypeScript source is shallowly embedded over exact rationals: every
`number` becomes `ℚ` (the IEEE-double arithmetic of the source is idealised
to exact arithmetic), except the three fields of `ElasticProperties` whose
source computation goes through `Math.sqrt` / `Math.atan2`, which are
embedded over `ℝ`.  Loops over vertex indices `i` with successor
`(i + 1) % n` are embedded as folds over `List.range`.
-/

/-- An (x, y) pair of real-world coordinates (`Point` in `types/geometry`). -/
structure Point where
  x : ℚ
  y : ℚ
deriving DecidableEq, Repr

/-- The `direction` string union of the source: a cut line is horizontal
(`y = cutValue`) or vertical (`x = cutValue`). -/
inductive Direction where
  | horizontal
  | vertical
deriving DecidableEq, Repr

/-- The `keepSide` string union of the source: keep the part of the polygon
below/left (`val <= cutValue`) or above/right (`val >= cutValue`). -/
inductive Side where
  | below
  | above
deriving DecidableEq, Repr

/-- A cross-sectional region: one outer boundary plus holes (`CrossSection`). -/
structure CrossSection where
  outerBoundary : List Point
  holes : List (List Point)

/-- The `PlasticProperties` record of the source. -/
structure PlasticProperties where
  pnaX : ℚ
  pnaY : ℚ
  Zx : ℚ
  Zy : ℚ
deriving DecidableEq, Repr

/-- The `ElasticProperties` record of the source.  Fields produced by
`Math.sqrt` / `Math.atan2` are real-valued; all other fields are exact
rationals. -/
structure ElasticProperties where
  area : ℚ
  centroidX : ℚ
  centroidY : ℚ
  Ix : ℚ
  Iy : ℚ
  Ixy : ℚ
  Ix_principal : ℝ
  Iy_principal : ℝ
  theta_principal : ℝ
  Sx_top : ℚ
  Sx_bot : ℚ
  Sy_left : ℚ
  Sy_right : ℚ
  rx : ℝ
  ry : ℝ

/-- The `SectionProperties` record pairing the elastic and plastic results. -/
structure SectionProperties where
  elastic : ElasticProperties
  plastic : PlasticProperties

/-- The literal `1e-12` used by the source as a degeneracy threshold. -/
def tol12 : ℚ := 1 / 1000000000000

/-- The literal `1e-10` used by the source in the bisection convergence test. -/
def tol10 : ℚ := 1 / 10000000000

/-- JavaScript `Math.abs`: negate when negative.  (Defined by the sign test
rather than through the lattice `|·|` so that concrete inputs evaluate by
kernel reduction; `ratAbs_eq_abs` below identifies the two.) -/
def ratAbs (q : ℚ) : ℚ := if q < 0 then -q else q

/-- Default point used to express JavaScript array indexing `vertices[i]`
(every access in the source is within bounds, so the default is never hit). -/
def originPt : Point := ⟨0, 0⟩

/-- The shoelace cross term `x_i * y_j - x_j * y_i` that all the polygon
integrals of the source are built from. -/
def cross (p q : Point) : ℚ := p.x * q.y - q.x * p.y

/-- `signedPolygonArea` (source lines 7–17): Shoelace sum over cyclically
adjacent vertex pairs, divided by 2; polygons with fewer than 3 vertices
give 0. -/
def signedPolygonArea (vertices : List Point) : ℚ :=
  if vertices.length < 3 then 0
  else
    ((List.range vertices.length).foldl
      (fun acc i =>
        acc + cross (vertices.getD i originPt) (vertices.getD ((i + 1) % vertices.length) originPt))
      0) / 2

/-- `polygonArea`: absolute area. -/
def polygonArea (vertices : List Point) : ℚ := ratAbs (signedPolygonArea vertices)

/-- `polygonCentroid` (source lines 29–45): signed-area-weighted centroid,
returning the origin for degenerate input. -/
def polygonCentroid (vertices : List Point) : Point :=
  if vertices.length < 3 then originPt
  else
    let A := signedPolygonArea vertices
    if ratAbs A < tol12 then originPt
    else
      let cx := (List.range vertices.length).foldl
        (fun acc i =>
          let vi := vertices.getD i originPt
          let vj := vertices.getD ((i + 1) % vertices.length) originPt
          acc + (vi.x + vj.x) * (vi.x * vj.y - vj.x * vi.y)) 0
      let cy := (List.range vertices.length).foldl
        (fun acc i =>
          let vi := vertices.getD i originPt
          let vj := vertices.getD ((i + 1) % vertices.length) originPt
          acc + (vi.y + vj.y) * (vi.x * vj.y - vj.x * vi.y)) 0
      ⟨cx / (6 * A), cy / (6 * A)⟩

/-- `polygonIxOrigin` (source lines 52–62): second moment of area about the
x-axis through the origin. -/
def polygonIxOrigin (vertices : List Point) : ℚ :=
  if vertices.length < 3 then 0
  else
    ((List.range vertices.length).foldl
      (fun acc i =>
        let vi := vertices.getD i originPt
        let vj := vertices.getD ((i + 1) % vertices.length) originPt
        acc + (vi.y ^ 2 + vi.y * vj.y + vj.y ^ 2) * (vi.x * vj.y - vj.x * vi.y)) 0) / 12

/-- `polygonIyOrigin` (source lines 67–77). -/
def polygonIyOrigin (vertices : List Point) : ℚ :=
  if vertices.length < 3 then 0
  else
    ((List.range vertices.length).foldl
      (fun acc i =>
        let vi := vertices.getD i originPt
        let vj := vertices.getD ((i + 1) % vertices.length) originPt
        acc + (vi.x ^ 2 + vi.x * vj.x + vj.x ^ 2) * (vi.x * vj.y - vj.x * vi.y)) 0) / 12

/-- `polygonIxyOrigin` (source lines 82–92): product of inertia about the
origin. -/
def polygonIxyOrigin (vertices : List Point) : ℚ :=
  if vertices.length < 3 then 0
  else
    ((List.range vertices.length).foldl
      (fun acc i =>
        let vi := vertices.getD i originPt
        let vj := vertices.getD ((i + 1) % vertices.length) originPt
        acc + (vi.x * vj.y + 2 * vi.x * vi.y + 2 * vj.x * vj.y + vj.x * vi.y)
            * (vi.x * vj.y - vj.x * vi.y)) 0) / 24

/-- `ensureCCW` (source lines 407–410): reverse the vertex order when the
signed area is negative. -/
def ensureCCW (vertices : List Point) : List Point :=
  if signedPolygonArea vertices < 0 then vertices.reverse else vertices

/-- `ensureCW` (source lines 415–418): reverse the vertex order when the
signed area is positive. -/
def ensureCW (vertices : List Point) : List Point :=
  if 0 < signedPolygonArea vertices then vertices.reverse else vertices

/-- The cut-direction coordinate of a point (`point.y` for a horizontal cut
line, `point.x` for a vertical one). -/
def coordOf (direction : Direction) (p : Point) : ℚ :=
  match direction with
  | .horizontal => p.y
  | .vertical => p.x

/-- `isInside` (source lines 369–377). -/
def isInside (point : Point) (cutValue : ℚ) (direction : Direction) (keepSide : Side) : Bool :=
  let val := coordOf direction point
  match keepSide with
  | .below => decide (val ≤ cutValue)
  | .above => decide (cutValue ≤ val)

/-- `intersect` (source lines 379–395): linear interpolation of the edge
`p1 → p2` with the cut line, guarded by the `1e-12` degeneracy threshold
(an edge nearly parallel to the cut line returns `p1` unchanged). -/
def intersectPt (p1 p2 : Point) (cutValue : ℚ) (direction : Direction) : Point :=
  match direction with
  | .horizontal =>
    if ratAbs (p2.y - p1.y) < tol12 then p1
    else
      let t := (cutValue - p1.y) / (p2.y - p1.y)
      ⟨p1.x + t * (p2.x - p1.x), cutValue⟩
  | .vertical =>
    if ratAbs (p2.x - p1.x) < tol12 then p1
    else
      let t := (cutValue - p1.x) / (p2.x - p1.x)
      ⟨cutValue, p1.y + t * (p2.y - p1.y)⟩

/-- The vertices pushed to the output for one edge `current → next` of the
Sutherland–Hodgman loop body (source lines 349–363). -/
def clipChunk (current next : Point) (cutValue : ℚ) (direction : Direction)
    (keepSide : Side) : List Point :=
  if isInside current cutValue direction keepSide then
    if isInside next cutValue direction keepSide then [current]
    else [current, intersectPt current next cutValue direction]
  else
    if isInside next cutValue direction keepSide then
      [intersectPt current next cutValue direction]
    else []

/-- `clipPolygon` (source lines 337–366): Sutherland–Hodgman clipping against
one axis-aligned line; fewer than 3 vertices give the empty output. -/
def clipPolygon (vertices : List Point) (cutValue : ℚ) (direction : Direction)
    (keepSide : Side) : List Point :=
  if vertices.length < 3 then []
  else
    (List.range vertices.length).foldl
      (fun output i =>
        output ++ clipChunk (vertices.getD i originPt)
          (vertices.getD ((i + 1) % vertices.length) originPt) cutValue direction keepSide)
      []

/-- `computeAreaOneSide` (source lines 268–284): clipped outer area minus the
clipped hole areas. -/
def computeAreaOneSide (outer : List Point) (holes : List (List Point)) (cutValue : ℚ)
    (direction : Direction) (side : Side) : ℚ :=
  holes.foldl
    (fun area hole => area - polygonArea (clipPolygon hole cutValue direction side))
    (polygonArea (clipPolygon outer cutValue direction side))

/-- `firstMomentAboutAxis` (source lines 315–332). -/
def firstMomentAboutAxis (vertices : List Point) (axisValue : ℚ)
    (direction : Direction) : ℚ :=
  if vertices.length < 3 then 0
  else
    let A := polygonArea vertices
    let c := polygonCentroid vertices
    match direction with
    | .horizontal => A * (c.y - axisValue)
    | .vertical => A * (c.x - axisValue)

/-- `computePlasticModulus` (source lines 291–310). -/
def computePlasticModulus (outer : List Point) (holes : List (List Point)) (pna : ℚ)
    (direction : Direction) : ℚ :=
  let outerAbove := clipPolygon outer pna direction .above
  let outerBelow := clipPolygon outer pna direction .below
  let momentAbove := holes.foldl
    (fun m hole => m - firstMomentAboutAxis (clipPolygon hole pna direction .above) pna direction)
    (firstMomentAboutAxis outerAbove pna direction)
  let momentBelow := holes.foldl
    (fun m hole => m - firstMomentAboutAxis (clipPolygon hole pna direction .below) pna direction)
    (firstMomentAboutAxis outerBelow pna direction)
  ratAbs momentAbove + ratAbs momentBelow

/-- The body of the `findPNA` bisection loop (source lines 246–262), with the
remaining iteration count as explicit fuel.  `findPNAGo _ _ _ _ _ fuel lo hi`
runs up to `fuel` iterations and falls back to the midpoint of the final
bracket. -/
def findPNAGo (outer : List Point) (holes : List (List Point)) (halfArea totalArea : ℚ)
    (direction : Direction) : ℕ → ℚ → ℚ → ℚ
  | 0, lo, hi => (lo + hi) / 2
  | fuel + 1, lo, hi =>
    let mid := (lo + hi) / 2
    let areaBelow := computeAreaOneSide outer holes mid direction .below
    if ratAbs (areaBelow - halfArea) < totalArea * tol10 then mid
    else if areaBelow < halfArea then findPNAGo outer holes halfArea totalArea direction fuel mid hi
    else findPNAGo outer holes halfArea totalArea direction fuel lo mid

/-- `findPNA` (source lines 238–263): 100-iteration bisection for the plastic
neutral axis. -/
def findPNA (outer : List Point) (holes : List (List Point)) (totalArea minVal maxVal : ℚ)
    (direction : Direction) : ℚ :=
  findPNAGo outer holes (totalArea / 2) totalArea direction 100 minVal maxVal

/-- `computeNetArea` (source lines 397–403). -/
def computeNetArea (outer : List Point) (holes : List (List Point)) : ℚ :=
  holes.foldl (fun area hole => area - polygonArea hole) (polygonArea outer)

/-- Minimum of `f` over a vertex list.  The source initialises with
`Infinity` and folds `<`-updates; on the nonempty lists on which the value is
ever used (the source only reaches the fold when the net area is at least
`1e-12`, which forces a nonempty outer boundary) this equals the fold below.
The `[]` case returns 0 and is unreachable in the source. -/
def foldMin (f : Point → ℚ) : List Point → ℚ
  | [] => 0
  | p :: ps => ps.foldl (fun acc q => min acc (f q)) (f p)

/-- Maximum of `f` over a vertex list; see `foldMin` for the `-Infinity`
initialisation of the source. -/
def foldMax (f : Point → ℚ) : List Point → ℚ
  | [] => 0
  | p :: ps => ps.foldl (fun acc q => max acc (f q)) (f p)

/-- The winding-normalised outer boundary used by both engines
(`ensureCCW(sec.outerBoundary)`). -/
def normOuter (sec : CrossSection) : List Point := ensureCCW sec.outerBoundary

/-- The winding-normalised holes (`sec.holes.map(h => ensureCW(h))`). -/
def normHoles (sec : CrossSection) : List (List Point) := sec.holes.map ensureCW

/-- All vertices of outer boundary and holes (`[outer, ...holes].flat()`),
after winding normalisation. -/
def allVerts (sec : CrossSection) : List Point :=
  normOuter sec ++ (normHoles sec).flatten

/-- Lower end of the vertex bounding box along a cut direction. -/
def bboxMin (sec : CrossSection) (direction : Direction) : ℚ :=
  foldMin (coordOf direction) (allVerts sec)

/-- Upper end of the vertex bounding box along a cut direction. -/
def bboxMax (sec : CrossSection) (direction : Direction) : ℚ :=
  foldMax (coordOf direction) (allVerts sec)

/-- `computePlasticProperties` (source lines 203–231). -/
def computePlasticProperties (sec : CrossSection) : PlasticProperties :=
  let outer := normOuter sec
  let holes := normHoles sec
  let totalArea := computeNetArea outer holes
  if totalArea < tol12 then ⟨0, 0, 0, 0⟩
  else
    let pnaX := findPNA outer holes totalArea (bboxMin sec .horizontal)
      (bboxMax sec .horizontal) .horizontal
    let Zx := computePlasticModulus outer holes pnaX .horizontal
    let pnaY := findPNA outer holes totalArea (bboxMin sec .vertical)
      (bboxMax sec .vertical) .vertical
    let Zy := computePlasticModulus outer holes pnaY .vertical
    ⟨pnaX, pnaY, Zx, Zy⟩

/-- Net area `outerArea - Σ holeArea` as computed at source lines 102–105. -/
def netElasticArea (sec : CrossSection) : ℚ :=
  (normHoles sec).foldl (fun a h => a - polygonArea h) (polygonArea (normOuter sec))

/-- First moment `Qx` (source lines 112–119). -/
def elasticQx (sec : CrossSection) : ℚ :=
  (normHoles sec).foldl
    (fun q h => q - polygonArea h * (polygonCentroid h).y)
    (polygonArea (normOuter sec) * (polygonCentroid (normOuter sec)).y)

/-- First moment `Qy` (source lines 113–120). -/
def elasticQy (sec : CrossSection) : ℚ :=
  (normHoles sec).foldl
    (fun q h => q - polygonArea h * (polygonCentroid h).x)
    (polygonArea (normOuter sec) * (polygonCentroid (normOuter sec)).x)

/-- `centroidX = Qy / area` (source line 122). -/
def centroidXE (sec : CrossSection) : ℚ := elasticQy sec / netElasticArea sec

/-- `centroidY = Qx / area` (source line 123). -/
def centroidYE (sec : CrossSection) : ℚ := elasticQx sec / netElasticArea sec

/-- `IxOrigin` after hole subtraction (source lines 126–136): absolute values
of the raw origin moments, outer minus holes. -/
def IxOriginE (sec : CrossSection) : ℚ :=
  (normHoles sec).foldl (fun m h => m - ratAbs (polygonIxOrigin h))
    (ratAbs (polygonIxOrigin (normOuter sec)))

/-- `IyOrigin` after hole subtraction (source lines 127–137). -/
def IyOriginE (sec : CrossSection) : ℚ :=
  (normHoles sec).foldl (fun m h => m - ratAbs (polygonIyOrigin h))
    (ratAbs (polygonIyOrigin (normOuter sec)))

/-- `IxyOrigin` after hole subtraction (source lines 128–138): carried with
its natural sign. -/
def IxyOriginE (sec : CrossSection) : ℚ :=
  (normHoles sec).foldl (fun m h => m - polygonIxyOrigin h)
    (polygonIxyOrigin (normOuter sec))

/-- Centroidal `Ix` by the parallel-axis theorem (source line 142). -/
def IxE (sec : CrossSection) : ℚ :=
  IxOriginE sec - netElasticArea sec * centroidYE sec ^ 2

/-- Centroidal `Iy` (source line 143). -/
def IyE (sec : CrossSection) : ℚ :=
  IyOriginE sec - netElasticArea sec * centroidXE sec ^ 2

/-- Centroidal `Ixy` (source line 144). -/
def IxyE (sec : CrossSection) : ℚ :=
  IxyOriginE sec - netElasticArea sec * centroidXE sec * centroidYE sec

/-- `Iavg = (Ix + Iy) / 2` (source line 147). -/
def IavgE (sec : CrossSection) : ℚ := (IxE sec + IyE sec) / 2

/-- `Idiff = (Ix - Iy) / 2` (source line 148). -/
def IdiffE (sec : CrossSection) : ℚ := (IxE sec - IyE sec) / 2

/-- Extreme fiber distance `yMax` above the centroid (source lines 158–167). -/
def yMaxDist (sec : CrossSection) : ℚ :=
  foldMax (fun v => v.y - centroidYE sec) (allVerts sec)

/-- Extreme fiber distance `yMin` below the centroid. -/
def yMinDist (sec : CrossSection) : ℚ :=
  foldMin (fun v => v.y - centroidYE sec) (allVerts sec)

/-- Extreme fiber distance `xMax` right of the centroid. -/
def xMaxDist (sec : CrossSection) : ℚ :=
  foldMax (fun v => v.x - centroidXE sec) (allVerts sec)

/-- Extreme fiber distance `xMin` left of the centroid. -/
def xMinDist (sec : CrossSection) : ℚ :=
  foldMin (fun v => v.x - centroidXE sec) (allVerts sec)

/-- `zeroElasticProps` (source lines 422–430). -/
def zeroElasticProps : ElasticProperties :=
  ⟨0, 0, 0, 0, 0, 0, 0, 0, 0, 0, 0, 0, 0, 0, 0⟩

/-- JavaScript `Math.atan2` on reals (signed zero of IEEE doubles is not
representable over `ℚ`-derived inputs; `atan2 0 0 = 0` as in JavaScript). -/
noncomputable def jsAtan2 (y x : ℝ) : ℝ :=
  if 0 < x then Real.arctan (y / x)
  else if x < 0 then
    (if 0 ≤ y then Real.arctan (y / x) + Real.pi else Real.arctan (y / x) - Real.pi)
  else
    (if 0 < y then Real.pi / 2 else if y < 0 then -(Real.pi / 2) else 0)

/-- `computeElasticProperties` (source lines 97–195). -/
noncomputable def computeElasticProperties (sec : CrossSection) : ElasticProperties :=
  if netElasticArea sec < tol12 then zeroElasticProps
  else
    { area := netElasticArea sec
      centroidX := centroidXE sec
      centroidY := centroidYE sec
      Ix := IxE sec
      Iy := IyE sec
      Ixy := IxyE sec
      Ix_principal :=
        (IavgE sec : ℝ) + Real.sqrt ((IdiffE sec ^ 2 + IxyE sec ^ 2 : ℚ) : ℝ)
      Iy_principal :=
        (IavgE sec : ℝ) - Real.sqrt ((IdiffE sec ^ 2 + IxyE sec ^ 2 : ℚ) : ℝ)
      theta_principal :=
        if tol12 < ratAbs (IxyE sec) then
          jsAtan2 ((-IxyE sec : ℚ) : ℝ) ((IdiffE sec : ℚ) : ℝ) / 2
        else 0
      Sx_top := if tol12 < ratAbs (yMaxDist sec) then IxE sec / ratAbs (yMaxDist sec) else 0
      Sx_bot := if tol12 < ratAbs (yMinDist sec) then IxE sec / ratAbs (yMinDist sec) else 0
      Sy_left := if tol12 < ratAbs (xMinDist sec) then IyE sec / ratAbs (xMinDist sec) else 0
      Sy_right := if tol12 < ratAbs (xMaxDist sec) then IyE sec / ratAbs (xMaxDist sec) else 0
      rx := Real.sqrt ((IxE sec / netElasticArea sec : ℚ) : ℝ)
      ry := Real.sqrt ((IyE sec / netElasticArea sec : ℚ) : ℝ) }

/-- `computeSectionProperties` (source lines 435–439). -/
noncomputable def computeSectionProperties (sec : CrossSection) : SectionProperties :=
  ⟨computeElasticProperties sec, computePlasticProperties sec⟩

/-!
## Infrastructure: cyclic shoelace sums

`signedPolygonArea` traverses the vertex cycle with `(i + 1) % n` indexing.
The lemmas below re-express that traversal as a path sum over consecutive
vertices plus one wrap-around term, which is the form all structural proofs
below use.
-/

/-- Sum of `cross` over consecutive pairs of an (open) vertex path. -/
def pathCross : List Point → ℚ
  | [] => 0
  | [_] => 0
  | p :: q :: rest => cross p q + pathCross (q :: rest)

/-- Shoelace sum over the closed vertex cycle: the path sum plus the
wrap-around term from the last vertex back to the first. -/
def cyc : List Point → ℚ
  | [] => 0
  | p :: rest => pathCross (p :: rest) + cross (rest.getLastD p) p

lemma crossPt_self (p : Point) : cross p p = 0 := by
  unfold cross; ring

lemma crossPt_antisymm (p q : Point) : cross q p = - cross p q := by
  unfold cross; ring

lemma foldl_add_eq_sum {α : Type} (g : α → ℚ) :
    ∀ (r : List α) (init : ℚ), r.foldl (fun acc a => acc + g a) init = init + (r.map g).sum := by
  intro r
  induction r with
  | nil => intro init; simp
  | cons a as ih => intro init; simp [ih, add_assoc]

lemma getD_last : ∀ (rest : List Point) (p : Point),
    (p :: rest).getD rest.length originPt = rest.getLastD p := by
  intro rest
  induction rest with
  | nil => intro p; rfl
  | cons q rs ih =>
    intro p
    rw [show (q :: rs).length = rs.length + 1 from rfl, List.getD_cons_succ,
      List.getLastD_cons]
    exact ih q

lemma consecSum : ∀ (rest : List Point) (p : Point),
    ((List.range rest.length).map
      (fun i => cross ((p :: rest).getD i originPt) ((p :: rest).getD (i + 1) originPt))).sum
    = pathCross (p :: rest) := by
  intro rest
  induction rest with
  | nil => intro p; simp [pathCross]
  | cons q rs ih =>
    intro p
    have hlen : (q :: rs).length = rs.length + 1 := rfl
    rw [hlen, List.range_succ_eq_map]
    simp only [List.map_cons, List.map_map, List.sum_cons]
    have htail :
        ((List.range rs.length).map
          ((fun i => cross ((p :: q :: rs).getD i originPt) ((p :: q :: rs).getD (i + 1) originPt))
            ∘ Nat.succ)).sum
        = pathCross (q :: rs) := by
      rw [← ih q]
      apply congrArg
      apply List.map_congr_left
      intro i _
      simp [Function.comp]
    rw [htail]
    simp [pathCross]

lemma rangeCrossSum (p : Point) (rest : List Point) :
    ((List.range (p :: rest).length).map
      (fun i => cross ((p :: rest).getD i originPt)
        ((p :: rest).getD ((i + 1) % (p :: rest).length) originPt))).sum
    = cyc (p :: rest) := by
  have hlen : (p :: rest).length = rest.length + 1 := rfl
  rw [hlen, List.range_succ, List.map_append, List.sum_append]
  have hcongr : ∀ i ∈ List.range rest.length,
      cross ((p :: rest).getD i originPt)
        ((p :: rest).getD ((i + 1) % (rest.length + 1)) originPt)
      = cross ((p :: rest).getD i originPt) ((p :: rest).getD (i + 1) originPt) := by
    intro i hi
    rw [List.mem_range] at hi
    rw [Nat.mod_eq_of_lt (by omega)]
  rw [List.map_congr_left hcongr, consecSum]
  simp only [List.map_cons, List.map_nil, List.sum_cons, List.sum_nil, Nat.mod_self]
  rw [getD_last]
  simp [cyc]

lemma cyc_short (l : List Point) (h : l.length < 3) : cyc l = 0 := by
  match l, h with
  | [], _ => rfl
  | [p], _ =>
    show pathCross [p] + cross (List.getLastD [] p) p = 0
    rw [show pathCross [p] = 0 from rfl, List.getLastD_nil, crossPt_self, add_zero]
  | [p, q], _ =>
    show pathCross [p, q] + cross (List.getLastD [q] p) p = 0
    rw [show pathCross [p, q] = cross p q + pathCross [q] from rfl,
      show pathCross [q] = 0 from rfl, show List.getLastD [q] p = q from rfl,
      crossPt_antisymm]
    ring

lemma signedPolygonArea_eq_cyc (l : List Point) : signedPolygonArea l = cyc l / 2 := by
  by_cases h : l.length < 3
  · rw [signedPolygonArea, if_pos h, cyc_short l h, zero_div]
  · rw [signedPolygonArea, if_neg h]
    match l, h with
    | p :: rest, _ =>
      rw [foldl_add_eq_sum, zero_add, rangeCrossSum]

/-!
## Infrastructure: the Sutherland–Hodgman traversal as path chunks

`clipPolygon` walks the edges `(v[i], v[(i+1) % n])` and appends a small
chunk of output vertices per edge.  The lemmas below rewrite that loop as a
concatenation of per-edge chunks over the closed path `p :: rest ++ [p]`.
-/

/-- Consecutive pairs of the path that starts at a given vertex. -/
def pathPairs : Point → List Point → List (Point × Point)
  | _, [] => []
  | u, v :: vs => (u, v) :: pathPairs v vs

/-- Concatenation of the lists produced by `F` over a list. -/
def catMap {α β : Type} (F : α → List β) : List α → List β
  | [] => []
  | a :: as => F a ++ catMap F as

lemma foldl_append_eq_catMap {α β : Type} (F : α → List β) :
    ∀ (r : List α) (init : List β),
      r.foldl (fun out a => out ++ F a) init = init ++ catMap F r := by
  intro r
  induction r with
  | nil => intro init; simp [catMap]
  | cons a as ih => intro init; simp [catMap, ih]

lemma catMap_map {α β γ : Type} (F : β → List γ) (f : α → β) :
    ∀ r : List α, catMap F (r.map f) = catMap (fun a => F (f a)) r := by
  intro r
  induction r with
  | nil => rfl
  | cons a as ih => simp [catMap, ih]

lemma range_pairs (p : Point) (rest : List Point) :
    (List.range (p :: rest).length).map
      (fun i => ((p :: rest).getD i originPt,
        (p :: rest).getD ((i + 1) % (p :: rest).length) originPt))
    = (p :: rest).zip (rest ++ [p]) := by
  apply List.ext_getElem
  · simp
  · intro i h1 h2
    simp only [List.getElem_map, List.getElem_range, List.getElem_zip]
    have hn : (p :: rest).length = rest.length + 1 := rfl
    have hi : i < rest.length + 1 := by
      simpa [hn] using (by simpa using h1 : i < (p :: rest).length)
    rcases Nat.lt_or_ge i rest.length with hlt | hge
    · have hmod : (i + 1) % (p :: rest).length = i + 1 := by
        rw [hn]; exact Nat.mod_eq_of_lt (by omega)
      rw [hmod, List.getD_eq_getElem _ _ (by simp [hn]; omega),
        List.getD_eq_getElem _ _ (by simp [hn]; omega)]
      have hb1 : i + 1 < (p :: rest).length := by simp [hn]; omega
      have hb2 : i < (rest ++ [p]).length := by simp; omega
      have h3 : (p :: rest)[i + 1] = rest[i] := by
        simp
      have h4 : (rest ++ [p])[i] = rest[i] :=
        List.getElem_append_left hlt
      rw [h3, h4]
    · have hieq : i = rest.length := by omega
      subst hieq
      have hmod : (rest.length + 1) % (p :: rest).length = 0 := by
        rw [hn]; exact Nat.mod_self _
      rw [hmod, List.getD_eq_getElem _ _ (by simp [hn]),
        List.getD_eq_getElem _ _ (by simp [hn])]
      have hb3 : 0 < (p :: rest).length := by simp
      have hb4 : rest.length < (rest ++ [p]).length := by simp
      have h3 : (p :: rest)[0] = p := rfl
      have h4 : (rest ++ [p])[rest.length] = p := by
        simp
      rw [h3, h4]

lemma zip_eq_pathPairs : ∀ (vs : List Point) (u t : Point),
    (u :: vs).zip (vs ++ [t]) = pathPairs u (vs ++ [t]) := by
  intro vs
  induction vs with
  | nil => intro u t; rfl
  | cons v vs2 ih =>
    intro u t
    show (u, v) :: (v :: vs2).zip (vs2 ++ [t]) = (u, v) :: pathPairs v (vs2 ++ [t])
    rw [ih v t]

lemma clipPolygon_eq_catMap (p : Point) (rest : List Point) (c : ℚ) (d : Direction) (s : Side)
    (h : ¬ (p :: rest).length < 3) :
    clipPolygon (p :: rest) c d s
    = catMap (fun e => clipChunk e.1 e.2 c d s) (pathPairs p (rest ++ [p])) := by
  rw [clipPolygon, if_neg h, foldl_append_eq_catMap, List.nil_append,
    show (fun (i : ℕ) => clipChunk ((p :: rest).getD i originPt)
        ((p :: rest).getD ((i + 1) % (p :: rest).length) originPt) c d s)
      = (fun i => (fun e : Point × Point => clipChunk e.1 e.2 c d s)
        ((fun i => ((p :: rest).getD i originPt,
          (p :: rest).getD ((i + 1) % (p :: rest).length) originPt)) i)) from rfl,
    ← catMap_map ((fun e : Point × Point => clipChunk e.1 e.2 c d s)),
    range_pairs, zip_eq_pathPairs]

/-!
## Infrastructure: generic half-plane chunk chains

The per-edge output of the Sutherland–Hodgman loop is abstracted over an
inside predicate `ins`, an edge-intersection function `If` and a projection
`pr` onto the cut line, so that the below- and above-clips are two
instances of one development.  `gStarSum` is the idealised per-edge sum in
which every edge contributes a full sub-path from its (projected) start
point to its (projected) end point; the bridge theorem `gBridge` shows the
concrete chunk chain has the same cyclic shoelace sum.
-/

/-- The point standing in for `p` on a clipped boundary: `p` itself when
inside, its projection onto the cut line otherwise. -/
def gU (ins : Point → Bool) (pr : Point → Point) (p : Point) : Point :=
  if ins p then p else pr p

/-- Abstract per-edge output chunk of the Sutherland–Hodgman loop. -/
def gChunk (ins : Point → Bool) (If : Point → Point → Point) (u v : Point) : List Point :=
  if ins u then (if ins v then [u] else [u, If u v])
  else (if ins v then [If u v] else [])

lemma clipChunk_eq_gChunk (c : ℚ) (d : Direction) (s : Side) (u v : Point) :
    clipChunk u v c d s
    = gChunk (fun p => isInside p c d s) (fun a b => intersectPt a b c d) u v := rfl

/-- Concatenated chunks along a path. -/
def gChunks (ins : Point → Bool) (If : Point → Point → Point) (u : Point)
    (vs : List Point) : List Point :=
  catMap (fun e => gChunk ins If e.1 e.2) (pathPairs u vs)

lemma gChunks_nil (ins : Point → Bool) (If : Point → Point → Point) (u : Point) :
    gChunks ins If u [] = [] := rfl

lemma gChunks_cons (ins : Point → Bool) (If : Point → Point → Point) (u v : Point)
    (vs : List Point) :
    gChunks ins If u (v :: vs) = gChunk ins If u v ++ gChunks ins If v vs := rfl

/-- Idealised contribution of one edge: the shoelace path sum from the
(projected) start point through the possible crossing point to the
(projected) end point. -/
def gStar (ins : Point → Bool) (If : Point → Point → Point) (pr : Point → Point)
    (u v : Point) : ℚ :=
  if ins u ≠ ins v then
    cross (gU ins pr u) (If u v) + cross (If u v) (gU ins pr v)
  else cross (gU ins pr u) (gU ins pr v)

/-- Sum of the idealised edge contributions along a path. -/
def gStarSum (ins : Point → Bool) (If : Point → Point → Point) (pr : Point → Point) :
    Point → List Point → ℚ
  | _, [] => 0
  | u, v :: vs => gStar ins If pr u v + gStarSum ins If pr v vs

lemma pathCross_cons₂ (a b : Point) (l : List Point) :
    pathCross (a :: b :: l) = cross a b + pathCross (b :: l) := rfl


lemma pathCross_one (a : Point) : pathCross [a] = 0 := rfl

lemma gU_pos {ins : Point → Bool} (pr : Point → Point) {p : Point} (h : ins p = true) :
    gU ins pr p = p := by simp [gU, h]

lemma gU_neg {ins : Point → Bool} (pr : Point → Point) {p : Point} (h : ins p = false) :
    gU ins pr p = pr p := by simp [gU, h]

lemma gStar_crossing {ins : Point → Bool} (If : Point → Point → Point) (pr : Point → Point)
    {u v : Point} (h : ins u ≠ ins v) :
    gStar ins If pr u v = cross (gU ins pr u) (If u v) + cross (If u v) (gU ins pr v) := by
  rw [gStar, if_pos h]

lemma gStar_same {ins : Point → Bool} (If : Point → Point → Point) (pr : Point → Point)
    {u v : Point} (h : ins u = ins v) :
    gStar ins If pr u v = cross (gU ins pr u) (gU ins pr v) := by
  rw [gStar, if_neg (by simp [h])]

lemma gChunk_tt {ins : Point → Bool} (If : Point → Point → Point) {u v : Point}
    (hu : ins u = true) (hv : ins v = true) : gChunk ins If u v = [u] := by
  simp [gChunk, hu, hv]

lemma gChunk_tf {ins : Point → Bool} (If : Point → Point → Point) {u v : Point}
    (hu : ins u = true) (hv : ins v = false) : gChunk ins If u v = [u, If u v] := by
  simp [gChunk, hu, hv]

lemma gChunk_ft {ins : Point → Bool} (If : Point → Point → Point) {u v : Point}
    (hu : ins u = false) (hv : ins v = true) : gChunk ins If u v = [If u v] := by
  simp [gChunk, hu, hv]

lemma gChunk_ff {ins : Point → Bool} (If : Point → Point → Point) {u v : Point}
    (hu : ins u = false) (hv : ins v = false) : gChunk ins If u v = [] := by
  simp [gChunk, hu, hv]

/-- Bridge invariant: along a nonempty path whose crossing points land on
the cut line `L`, the concrete chunk chain is either empty (with the whole
path strictly outside) or its path sum, completed by the two boundary
terms, equals the idealised per-edge sum `gStarSum`. -/
theorem gBridge (ins : Point → Bool) (If : Point → Point → Point) (pr : Point → Point)
    (L : Point → Prop)
    (hcol : ∀ P Q R, L P → L Q → L R → cross P Q + cross Q R = cross P R)
    (hpr : ∀ q, L (pr q)) :
    ∀ (vs : List Point) (u : Point), vs ≠ [] →
      (∀ e ∈ pathPairs u vs, ins e.1 ≠ ins e.2 → L (If e.1 e.2)) →
      ((gChunks ins If u vs = [] →
          gStarSum ins If pr u vs = cross (pr u) (pr (vs.getLastD u))
          ∧ ins u = false ∧ ins (vs.getLastD u) = false)
       ∧ (∀ f r, gChunks ins If u vs = f :: r →
          pathCross (f :: r) + cross (r.getLastD f) (gU ins pr (vs.getLastD u))
              + cross (gU ins pr u) f
            = gStarSum ins If pr u vs
          ∧ (ins u = true → f = u) ∧ (ins u = false → L f)
          ∧ (ins (vs.getLastD u) = false → L (r.getLastD f)))) := by
  intro vs
  induction vs with
  | nil => intro u hne; exact absurd rfl hne
  | cons v vs2 ih =>
    intro u _ hC
    have hCpair : ins u ≠ ins v → L (If u v) := by
      intro hne
      exact hC (u, v) (by show (u, v) ∈ (u, v) :: pathPairs v vs2; exact List.mem_cons_self _ _) hne
    have hCtail : ∀ e ∈ pathPairs v vs2, ins e.1 ≠ ins e.2 → L (If e.1 e.2) := by
      intro e he
      exact hC e (by show e ∈ (u, v) :: pathPairs v vs2; exact List.mem_cons_of_mem _ he)
    cases vs2 with
    | nil =>
      have hss : gStarSum ins If pr u [v] = gStar ins If pr u v := by
        show gStar ins If pr u v + 0 = gStar ins If pr u v; ring
      rw [show ([v] : List Point).getLastD u = v from rfl, hss,
        show gChunks ins If u [v] = gChunk ins If u v from
          by rw [gChunks_cons, gChunks_nil, List.append_nil]]
      cases hu : ins u <;> cases hv : ins v
      · -- u out, v out
        rw [gChunk_ff If hu hv]
        refine ⟨fun _ => ⟨?_, rfl, rfl⟩, fun f r hfr => absurd hfr (by simp)⟩
        rw [gStar_same If pr (hu.trans hv.symm), gU_neg pr hu, gU_neg pr hv]
      · -- u out, v in
        have hL : L (If u v) := hCpair (by simp [hu, hv])
        rw [gChunk_ft If hu hv]
        refine ⟨fun hemp => absurd hemp (by simp), fun f r hfr => ?_⟩
        cases hfr
        refine ⟨?_, by simp [hu], fun _ => hL, by simp [hv]⟩
        rw [gStar_crossing If pr (by simp [hu, hv]), gU_neg pr hu, gU_pos pr hv,
          pathCross_one, List.getLastD_nil]
        ring
      · -- u in, v out
        have hL : L (If u v) := hCpair (by simp [hu, hv])
        rw [gChunk_tf If hu hv]
        refine ⟨fun hemp => absurd hemp (by simp), fun f r hfr => ?_⟩
        cases hfr
        refine ⟨?_, fun _ => rfl, by simp [hu], fun _ => ?_⟩
        · rw [gStar_crossing If pr (by simp [hu, hv]), gU_pos pr hu, gU_neg pr hv,
            pathCross_cons₂, pathCross_one, List.getLastD_cons, List.getLastD_nil,
            crossPt_self]
          ring
        · rw [List.getLastD_cons, List.getLastD_nil]
          exact hL
      · -- u in, v in
        rw [gChunk_tt If hu hv]
        refine ⟨fun hemp => absurd hemp (by simp), fun f r hfr => ?_⟩
        cases hfr
        refine ⟨?_, fun _ => rfl, by simp [hu], by simp [hv]⟩
        rw [gStar_same If pr (hu.trans hv.symm), gU_pos pr hu, gU_pos pr hv,
          pathCross_one, List.getLastD_nil, crossPt_self]
        ring
    | cons w ws =>
      rw [List.getLastD_cons,
        show gChunks ins If u (v :: w :: ws)
          = gChunk ins If u v ++ gChunks ins If v (w :: ws) from gChunks_cons _ _ _ _ _,
        show gStarSum ins If pr u (v :: w :: ws)
          = gStar ins If pr u v + gStarSum ins If pr v (w :: ws) from rfl]
      obtain ⟨ihE, ihC⟩ := ih v (by simp) hCtail
      cases hCC2 : gChunks ins If v (w :: ws) with
      | nil =>
        obtain ⟨hT2, hinsv, hinsz⟩ := ihE hCC2
        rw [hT2]
        cases hu : ins u
        · -- u out, v out
          rw [gChunk_ff If hu hinsv, List.nil_append]
          refine ⟨fun _ => ⟨?_, rfl, hinsz⟩, fun f r hfr => absurd hfr (by simp)⟩
          rw [gStar_same If pr (hu.trans hinsv.symm), gU_neg pr hu, gU_neg pr hinsv]
          exact hcol (pr u) (pr v) (pr ((w :: ws).getLastD v)) (hpr u) (hpr v) (hpr _)
        · -- u in, v out
          have hL : L (If u v) := hCpair (by simp [hu, hinsv])
          rw [gChunk_tf If hu hinsv, List.append_nil]
          refine ⟨fun hemp => absurd hemp (by simp), fun f r hfr => ?_⟩
          cases hfr
          refine ⟨?_, fun _ => rfl, by simp [hu], fun _ => ?_⟩
          · rw [gStar_crossing If pr (by simp [hu, hinsv]), gU_pos pr hu,
              gU_neg pr hinsv, gU_neg pr hinsz, pathCross_cons₂, pathCross_one,
              List.getLastD_cons, List.getLastD_nil, crossPt_self]
            have := hcol (If u v) (pr v) (pr ((w :: ws).getLastD v)) hL (hpr v) (hpr _)
            linarith
          · rw [List.getLastD_cons, List.getLastD_nil]
            exact hL
      | cons f2 r2 =>
        obtain ⟨hsum2, hfu2, hfL2, heL2⟩ := ihC f2 r2 hCC2
        cases hu : ins u <;> cases hv : ins v
        · -- u out, v out
          have hLf2 : L f2 := hfL2 hv
          rw [gChunk_ff If hu hv, List.nil_append]
          refine ⟨fun hemp => absurd hemp (by simp), fun f r hfr => ?_⟩
          cases hfr
          refine ⟨?_, by simp [hu], fun _ => hLf2, heL2⟩
          rw [gU_neg pr hv] at hsum2
          rw [gStar_same If pr (hu.trans hv.symm), gU_neg pr hu, gU_neg pr hv]
          have := hcol (pr u) (pr v) f2 (hpr u) (hpr v) hLf2
          linarith
        · -- u out, v in: chunk [If u v]
          have hf2v : f2 = v := hfu2 hv
          have hL : L (If u v) := hCpair (by simp [hu, hv])
          rw [gChunk_ft If hu hv]
          refine ⟨fun hemp => absurd hemp (by simp), fun f r hfr => ?_⟩
          have hfr2 : If u v :: f2 :: r2 = f :: r := hfr
          cases hfr2
          refine ⟨?_, by simp [hu], fun _ => hL, ?_⟩
          · rw [gU_pos pr hv, hf2v, crossPt_self, add_zero] at hsum2
            rw [gStar_crossing If pr (by simp [hu, hv]), gU_neg pr hu, gU_pos pr hv,
              pathCross_cons₂, List.getLastD_cons, hf2v]
            linarith
          · intro hz0
            rw [List.getLastD_cons]
            exact heL2 hz0
        · -- u in, v out: chunk [u, If u v]
          have hLf2 : L f2 := hfL2 hv
          have hL : L (If u v) := hCpair (by simp [hu, hv])
          rw [gChunk_tf If hu hv]
          refine ⟨fun hemp => absurd hemp (by simp), fun f r hfr => ?_⟩
          have hfr2 : u :: If u v :: f2 :: r2 = f :: r := hfr
          cases hfr2
          refine ⟨?_, fun _ => rfl, by simp [hu], ?_⟩
          · rw [gU_neg pr hv] at hsum2
            rw [gStar_crossing If pr (by simp [hu, hv]), gU_pos pr hu, gU_neg pr hv,
              pathCross_cons₂, pathCross_cons₂, List.getLastD_cons, List.getLastD_cons,
              crossPt_self]
            have := hcol (If u v) (pr v) f2 hL (hpr v) hLf2
            linarith
          · intro hz0
            rw [List.getLastD_cons, List.getLastD_cons]
            exact heL2 hz0
        · -- u in, v in: chunk [u]
          have hf2v : f2 = v := hfu2 hv
          rw [gChunk_tt If hu hv]
          refine ⟨fun hemp => absurd hemp (by simp), fun f r hfr => ?_⟩
          have hfr2 : u :: f2 :: r2 = f :: r := hfr
          cases hfr2
          refine ⟨?_, fun _ => rfl, by simp [hu], ?_⟩
          · rw [gU_pos pr hv, hf2v, crossPt_self, add_zero] at hsum2
            rw [gStar_same If pr (hu.trans hv.symm), gU_pos pr hu, gU_pos pr hv,
              pathCross_cons₂, List.getLastD_cons, crossPt_self, hf2v]
            linarith
          · intro hz0
            rw [List.getLastD_cons]
            exact heL2 hz0

/-- Projection of a point onto the cut line. -/
def prOf (c : ℚ) (d : Direction) (p : Point) : Point :=
  match d with
  | .horizontal => ⟨p.x, c⟩
  | .vertical => ⟨c, p.y⟩

/-- The predicate of lying exactly on the cut line. -/
def onLine (c : ℚ) (d : Direction) (p : Point) : Prop := coordOf d p = c

lemma onLine_col (c : ℚ) (d : Direction) :
    ∀ P Q R, onLine c d P → onLine c d Q → onLine c d R →
      cross P Q + cross Q R = cross P R := by
  intro P Q R hP hQ hR
  cases d <;> (simp only [onLine, coordOf] at hP hQ hR; unfold cross; rw [hP, hQ, hR]; ring)

lemma prOf_onLine (c : ℚ) (d : Direction) (p : Point) : onLine c d (prOf c d p) := by
  cases d <;> rfl

lemma intersectPt_onLine (c : ℚ) (d : Direction) (u v : Point)
    (hgg : tol12 ≤ ratAbs (coordOf d v - coordOf d u)) :
    onLine c d (intersectPt u v c d) := by
  cases d
  · simp only [coordOf] at hgg
    unfold intersectPt onLine coordOf
    rw [if_neg (not_lt.mpr hgg)]
  · simp only [coordOf] at hgg
    unfold intersectPt onLine coordOf
    rw [if_neg (not_lt.mpr hgg)]

lemma crossing_coord_ne (cv : ℚ) (d : Direction) (s : Side) (u v : Point)
    (h : isInside u cv d s ≠ isInside v cv d s) : coordOf d u ≠ coordOf d v := by
  intro heq
  apply h
  cases s <;> simp [isInside, heq]

/-- No edge of the closed vertex cycle is nearly parallel to the cut
direction: along the cut axis, consecutive vertices either coincide exactly
or are at least `1e-12` apart.  Exactly these polygons never trigger the
`intersect` guard. -/
def noGuardEdges (l : List Point) (d : Direction) : Prop :=
  match l with
  | [] => True
  | p :: rest => ∀ e ∈ pathPairs p (rest ++ [p]),
      coordOf d e.1 = coordOf d e.2 ∨ tol12 ≤ ratAbs (coordOf d e.2 - coordOf d e.1)

instance noGuardEdgesDec (l : List Point) (d : Direction) : Decidable (noGuardEdges l d) :=
  match l with
  | [] => .isTrue trivial
  | _ :: _ => List.decidableBAll _ _

lemma getLastD_snoc : ∀ (l : List Point) (x df : Point), (l ++ [x]).getLastD df = x := by
  intro l
  induction l with
  | nil => intro x df; rfl
  | cons r rs ih => intro x df; rw [List.cons_append, List.getLastD_cons]; exact ih x r

/-- The cyclic shoelace sum of a closed chunk chain equals the idealised
per-edge sum. -/
theorem cyc_gChunks (ins : Point → Bool) (If : Point → Point → Point) (pr : Point → Point)
    (L : Point → Prop)
    (hcol : ∀ P Q R, L P → L Q → L R → cross P Q + cross Q R = cross P R)
    (hpr : ∀ q, L (pr q)) (p : Point) (rest : List Point)
    (hC : ∀ e ∈ pathPairs p (rest ++ [p]), ins e.1 ≠ ins e.2 → L (If e.1 e.2)) :
    cyc (gChunks ins If p (rest ++ [p])) = gStarSum ins If pr p (rest ++ [p]) := by
  have hzlast : ((rest ++ [p]) : List Point).getLastD p = p := getLastD_snoc rest p p
  obtain ⟨hE, hCons⟩ := gBridge ins If pr L hcol hpr (rest ++ [p]) p (by simp) hC
  cases hCC : gChunks ins If p (rest ++ [p]) with
  | nil =>
    obtain ⟨hT, _, _⟩ := hE hCC
    rw [hT, hzlast, crossPt_self]
    rfl
  | cons f r =>
    obtain ⟨hsum, hfu, hfL, heL⟩ := hCons f r hCC
    rw [hzlast] at hsum heL
    show pathCross (f :: r) + cross (r.getLastD f) f = gStarSum ins If pr p (rest ++ [p])
    cases hins : ins p
    · have hLf : L f := hfL hins
      have hLe : L (r.getLastD f) := heL hins
      rw [gU_neg pr hins] at hsum
      have := hcol (r.getLastD f) (pr p) f hLe (hpr p) hLf
      linarith
    · have hfp : f = p := hfu hins
      rw [gU_pos pr hins, hfp, crossPt_self, add_zero] at hsum
      rw [hfp]
      linarith

/-- `clipPolygon` as a closed chunk chain, and its cyclic shoelace sum. -/
theorem cyc_clipPolygon (p : Point) (rest : List Point) (c : ℚ) (d : Direction) (s : Side)
    (hg : noGuardEdges (p :: rest) d) (h3 : ¬ (p :: rest).length < 3) :
    cyc (clipPolygon (p :: rest) c d s)
      = gStarSum (fun q => isInside q c d s) (fun a b => intersectPt a b c d) (prOf c d)
          p (rest ++ [p]) := by
  rw [clipPolygon_eq_catMap p rest c d s h3]
  have hchunks : catMap (fun e => clipChunk e.1 e.2 c d s) (pathPairs p (rest ++ [p]))
      = gChunks (fun q => isInside q c d s) (fun a b => intersectPt a b c d) p (rest ++ [p]) :=
    rfl
  rw [hchunks]
  apply cyc_gChunks _ _ _ (onLine c d) (onLine_col c d) (prOf_onLine c d)
  intro e he hne
  rcases hg e he with heq | hgg
  · exact absurd heq (crossing_coord_ne c d s e.1 e.2 hne)
  · exact intersectPt_onLine c d e.1 e.2 hgg

/-- Per-edge identity: the idealised below-contribution plus the idealised
above-contribution of one edge equals the edge's own shoelace term plus a
term between the two projections, which telescopes around the cycle. -/
lemma gStar_pair (c : ℚ) (d : Direction) (u v : Point)
    (h : coordOf d u = coordOf d v ∨ tol12 ≤ ratAbs (coordOf d v - coordOf d u)) :
    gStar (fun q => isInside q c d .below) (fun a b => intersectPt a b c d) (prOf c d) u v
      + gStar (fun q => isInside q c d .above) (fun a b => intersectPt a b c d) (prOf c d) u v
      = cross u v + cross (prOf c d u) (prOf c d v) := by
  obtain ⟨ux, uy⟩ := u
  obtain ⟨vx, vy⟩ := v
  cases d
  · -- horizontal cut
    simp only [coordOf] at h
    rcases lt_trichotomy uy c with hu | hu | hu <;> rcases lt_trichotomy vy c with hv | hv | hv
    · -- u lt c, v lt c
      have hbu : isInside ⟨ux, uy⟩ c Direction.horizontal Side.below = true := by
        simp [isInside, coordOf]; linarith
      have hbv : isInside ⟨vx, vy⟩ c Direction.horizontal Side.below = true := by
        simp [isInside, coordOf]; linarith
      have hau : isInside ⟨ux, uy⟩ c Direction.horizontal Side.above = false := by
        simp [isInside, coordOf]; linarith
      have hav : isInside ⟨vx, vy⟩ c Direction.horizontal Side.above = false := by
        simp [isInside, coordOf]; linarith
      simp [gStar, gU, hbu, hbv, hau, hav, cross, prOf]
      try ring
    · -- u lt c, v eq c
      have hbu : isInside ⟨ux, uy⟩ c Direction.horizontal Side.below = true := by
        simp [isInside, coordOf]; linarith
      have hbv : isInside ⟨vx, vy⟩ c Direction.horizontal Side.below = true := by
        simp [isInside, coordOf]; linarith
      have hau : isInside ⟨ux, uy⟩ c Direction.horizontal Side.above = false := by
        simp [isInside, coordOf]; linarith
      have hav : isInside ⟨vx, vy⟩ c Direction.horizontal Side.above = true := by
        simp [isInside, coordOf]; linarith
      have hgg : tol12 ≤ ratAbs (vy - uy) := h.resolve_left (by intro heq; linarith)
      have hnl : ¬(ratAbs (vy - uy) < tol12) := not_lt.mpr hgg
      simp [gStar, gU, hbu, hbv, hau, hav, intersectPt, hnl, cross, prOf]
      try rw [hv]
      have hden : c - uy ≠ 0 := by intro h0; linarith
      try field_simp
      try ring
    · -- u lt c, v gt c
      have hbu : isInside ⟨ux, uy⟩ c Direction.horizontal Side.below = true := by
        simp [isInside, coordOf]; linarith
      have hbv : isInside ⟨vx, vy⟩ c Direction.horizontal Side.below = false := by
        simp [isInside, coordOf]; linarith
      have hau : isInside ⟨ux, uy⟩ c Direction.horizontal Side.above = false := by
        simp [isInside, coordOf]; linarith
      have hav : isInside ⟨vx, vy⟩ c Direction.horizontal Side.above = true := by
        simp [isInside, coordOf]; linarith
      have hgg : tol12 ≤ ratAbs (vy - uy) := h.resolve_left (by intro heq; linarith)
      have hnl : ¬(ratAbs (vy - uy) < tol12) := not_lt.mpr hgg
      simp [gStar, gU, hbu, hbv, hau, hav, intersectPt, hnl, cross, prOf]
      have hden : vy - uy ≠ 0 := by intro h0; linarith
      try field_simp
      try ring
    · -- u eq c, v lt c
      have hbu : isInside ⟨ux, uy⟩ c Direction.horizontal Side.below = true := by
        simp [isInside, coordOf]; linarith
      have hbv : isInside ⟨vx, vy⟩ c Direction.horizontal Side.below = true := by
        simp [isInside, coordOf]; linarith
      have hau : isInside ⟨ux, uy⟩ c Direction.horizontal Side.above = true := by
        simp [isInside, coordOf]; linarith
      have hav : isInside ⟨vx, vy⟩ c Direction.horizontal Side.above = false := by
        simp [isInside, coordOf]; linarith
      have hgg : tol12 ≤ ratAbs (vy - uy) := h.resolve_left (by intro heq; linarith)
      have hnl : ¬(ratAbs (vy - uy) < tol12) := not_lt.mpr hgg
      simp [gStar, gU, hbu, hbv, hau, hav, intersectPt, hnl, cross, prOf]
      try rw [hu]
      have hden : vy - c ≠ 0 := by intro h0; linarith
      try field_simp
      try ring
    · -- u eq c, v eq c
      have hbu : isInside ⟨ux, uy⟩ c Direction.horizontal Side.below = true := by
        simp [isInside, coordOf]; linarith
      have hbv : isInside ⟨vx, vy⟩ c Direction.horizontal Side.below = true := by
        simp [isInside, coordOf]; linarith
      have hau : isInside ⟨ux, uy⟩ c Direction.horizontal Side.above = true := by
        simp [isInside, coordOf]; linarith
      have hav : isInside ⟨vx, vy⟩ c Direction.horizontal Side.above = true := by
        simp [isInside, coordOf]; linarith
      simp [gStar, gU, hbu, hbv, hau, hav, cross, prOf]
      try rw [hu]
      try rw [hv]
      try ring
    · -- u eq c, v gt c
      have hbu : isInside ⟨ux, uy⟩ c Direction.horizontal Side.below = true := by
        simp [isInside, coordOf]; linarith
      have hbv : isInside ⟨vx, vy⟩ c Direction.horizontal Side.below = false := by
        simp [isInside, coordOf]; linarith
      have hau : isInside ⟨ux, uy⟩ c Direction.horizontal Side.above = true := by
        simp [isInside, coordOf]; linarith
      have hav : isInside ⟨vx, vy⟩ c Direction.horizontal Side.above = true := by
        simp [isInside, coordOf]; linarith
      have hgg : tol12 ≤ ratAbs (vy - uy) := h.resolve_left (by intro heq; linarith)
      have hnl : ¬(ratAbs (vy - uy) < tol12) := not_lt.mpr hgg
      simp [gStar, gU, hbu, hbv, hau, hav, intersectPt, hnl, cross, prOf]
      try rw [hu]
      have hden : vy - c ≠ 0 := by intro h0; linarith
      try field_simp
      try ring
    · -- u gt c, v lt c
      have hbu : isInside ⟨ux, uy⟩ c Direction.horizontal Side.below = false := by
        simp [isInside, coordOf]; linarith
      have hbv : isInside ⟨vx, vy⟩ c Direction.horizontal Side.below = true := by
        simp [isInside, coordOf]; linarith
      have hau : isInside ⟨ux, uy⟩ c Direction.horizontal Side.above = true := by
        simp [isInside, coordOf]; linarith
      have hav : isInside ⟨vx, vy⟩ c Direction.horizontal Side.above = false := by
        simp [isInside, coordOf]; linarith
      have hgg : tol12 ≤ ratAbs (vy - uy) := h.resolve_left (by intro heq; linarith)
      have hnl : ¬(ratAbs (vy - uy) < tol12) := not_lt.mpr hgg
      simp [gStar, gU, hbu, hbv, hau, hav, intersectPt, hnl, cross, prOf]
      have hden : vy - uy ≠ 0 := by intro h0; linarith
      try field_simp
      try ring
    · -- u gt c, v eq c
      have hbu : isInside ⟨ux, uy⟩ c Direction.horizontal Side.below = false := by
        simp [isInside, coordOf]; linarith
      have hbv : isInside ⟨vx, vy⟩ c Direction.horizontal Side.below = true := by
        simp [isInside, coordOf]; linarith
      have hau : isInside ⟨ux, uy⟩ c Direction.horizontal Side.above = true := by
        simp [isInside, coordOf]; linarith
      have hav : isInside ⟨vx, vy⟩ c Direction.horizontal Side.above = true := by
        simp [isInside, coordOf]; linarith
      have hgg : tol12 ≤ ratAbs (vy - uy) := h.resolve_left (by intro heq; linarith)
      have hnl : ¬(ratAbs (vy - uy) < tol12) := not_lt.mpr hgg
      simp [gStar, gU, hbu, hbv, hau, hav, intersectPt, hnl, cross, prOf]
      try rw [hv]
      have hden : c - uy ≠ 0 := by intro h0; linarith
      try field_simp
      try ring
    · -- u gt c, v gt c
      have hbu : isInside ⟨ux, uy⟩ c Direction.horizontal Side.below = false := by
        simp [isInside, coordOf]; linarith
      have hbv : isInside ⟨vx, vy⟩ c Direction.horizontal Side.below = false := by
        simp [isInside, coordOf]; linarith
      have hau : isInside ⟨ux, uy⟩ c Direction.horizontal Side.above = true := by
        simp [isInside, coordOf]; linarith
      have hav : isInside ⟨vx, vy⟩ c Direction.horizontal Side.above = true := by
        simp [isInside, coordOf]; linarith
      simp [gStar, gU, hbu, hbv, hau, hav, cross, prOf]
      try ring
  · -- vertical cut
    simp only [coordOf] at h
    rcases lt_trichotomy ux c with hu | hu | hu <;> rcases lt_trichotomy vx c with hv | hv | hv
    · -- u lt c, v lt c
      have hbu : isInside ⟨ux, uy⟩ c Direction.vertical Side.below = true := by
        simp [isInside, coordOf]; linarith
      have hbv : isInside ⟨vx, vy⟩ c Direction.vertical Side.below = true := by
        simp [isInside, coordOf]; linarith
      have hau : isInside ⟨ux, uy⟩ c Direction.vertical Side.above = false := by
        simp [isInside, coordOf]; linarith
      have hav : isInside ⟨vx, vy⟩ c Direction.vertical Side.above = false := by
        simp [isInside, coordOf]; linarith
      simp [gStar, gU, hbu, hbv, hau, hav, cross, prOf]
      try ring
    · -- u lt c, v eq c
      have hbu : isInside ⟨ux, uy⟩ c Direction.vertical Side.below = true := by
        simp [isInside, coordOf]; linarith
      have hbv : isInside ⟨vx, vy⟩ c Direction.vertical Side.below = true := by
        simp [isInside, coordOf]; linarith
      have hau : isInside ⟨ux, uy⟩ c Direction.vertical Side.above = false := by
        simp [isInside, coordOf]; linarith
      have hav : isInside ⟨vx, vy⟩ c Direction.vertical Side.above = true := by
        simp [isInside, coordOf]; linarith
      have hgg : tol12 ≤ ratAbs (vx - ux) := h.resolve_left (by intro heq; linarith)
      have hnl : ¬(ratAbs (vx - ux) < tol12) := not_lt.mpr hgg
      simp [gStar, gU, hbu, hbv, hau, hav, intersectPt, hnl, cross, prOf]
      try rw [hv]
      have hden : c - ux ≠ 0 := by intro h0; linarith
      try field_simp
      try ring
    · -- u lt c, v gt c
      have hbu : isInside ⟨ux, uy⟩ c Direction.vertical Side.below = true := by
        simp [isInside, coordOf]; linarith
      have hbv : isInside ⟨vx, vy⟩ c Direction.vertical Side.below = false := by
        simp [isInside, coordOf]; linarith
      have hau : isInside ⟨ux, uy⟩ c Direction.vertical Side.above = false := by
        simp [isInside, coordOf]; linarith
      have hav : isInside ⟨vx, vy⟩ c Direction.vertical Side.above = true := by
        simp [isInside, coordOf]; linarith
      have hgg : tol12 ≤ ratAbs (vx - ux) := h.resolve_left (by intro heq; linarith)
      have hnl : ¬(ratAbs (vx - ux) < tol12) := not_lt.mpr hgg
      simp [gStar, gU, hbu, hbv, hau, hav, intersectPt, hnl, cross, prOf]
      have hden : vx - ux ≠ 0 := by intro h0; linarith
      try field_simp
      try ring
    · -- u eq c, v lt c
      have hbu : isInside ⟨ux, uy⟩ c Direction.vertical Side.below = true := by
        simp [isInside, coordOf]; linarith
      have hbv : isInside ⟨vx, vy⟩ c Direction.vertical Side.below = true := by
        simp [isInside, coordOf]; linarith
      have hau : isInside ⟨ux, uy⟩ c Direction.vertical Side.above = true := by
        simp [isInside, coordOf]; linarith
      have hav : isInside ⟨vx, vy⟩ c Direction.vertical Side.above = false := by
        simp [isInside, coordOf]; linarith
      have hgg : tol12 ≤ ratAbs (vx - ux) := h.resolve_left (by intro heq; linarith)
      have hnl : ¬(ratAbs (vx - ux) < tol12) := not_lt.mpr hgg
      simp [gStar, gU, hbu, hbv, hau, hav, intersectPt, hnl, cross, prOf]
      try rw [hu]
      have hden : vx - c ≠ 0 := by intro h0; linarith
      try field_simp
      try ring
    · -- u eq c, v eq c
      have hbu : isInside ⟨ux, uy⟩ c Direction.vertical Side.below = true := by
        simp [isInside, coordOf]; linarith
      have hbv : isInside ⟨vx, vy⟩ c Direction.vertical Side.below = true := by
        simp [isInside, coordOf]; linarith
      have hau : isInside ⟨ux, uy⟩ c Direction.vertical Side.above = true := by
        simp [isInside, coordOf]; linarith
      have hav : isInside ⟨vx, vy⟩ c Direction.vertical Side.above = true := by
        simp [isInside, coordOf]; linarith
      simp [gStar, gU, hbu, hbv, hau, hav, cross, prOf]
      try rw [hu]
      try rw [hv]
      try ring
    · -- u eq c, v gt c
      have hbu : isInside ⟨ux, uy⟩ c Direction.vertical Side.below = true := by
        simp [isInside, coordOf]; linarith
      have hbv : isInside ⟨vx, vy⟩ c Direction.vertical Side.below = false := by
        simp [isInside, coordOf]; linarith
      have hau : isInside ⟨ux, uy⟩ c Direction.vertical Side.above = true := by
        simp [isInside, coordOf]; linarith
      have hav : isInside ⟨vx, vy⟩ c Direction.vertical Side.above = true := by
        simp [isInside, coordOf]; linarith
      have hgg : tol12 ≤ ratAbs (vx - ux) := h.resolve_left (by intro heq; linarith)
      have hnl : ¬(ratAbs (vx - ux) < tol12) := not_lt.mpr hgg
      simp [gStar, gU, hbu, hbv, hau, hav, intersectPt, hnl, cross, prOf]
      try rw [hu]
      have hden : vx - c ≠ 0 := by intro h0; linarith
      try field_simp
      try ring
    · -- u gt c, v lt c
      have hbu : isInside ⟨ux, uy⟩ c Direction.vertical Side.below = false := by
        simp [isInside, coordOf]; linarith
      have hbv : isInside ⟨vx, vy⟩ c Direction.vertical Side.below = true := by
        simp [isInside, coordOf]; linarith
      have hau : isInside ⟨ux, uy⟩ c Direction.vertical Side.above = true := by
        simp [isInside, coordOf]; linarith
      have hav : isInside ⟨vx, vy⟩ c Direction.vertical Side.above = false := by
        simp [isInside, coordOf]; linarith
      have hgg : tol12 ≤ ratAbs (vx - ux) := h.resolve_left (by intro heq; linarith)
      have hnl : ¬(ratAbs (vx - ux) < tol12) := not_lt.mpr hgg
      simp [gStar, gU, hbu, hbv, hau, hav, intersectPt, hnl, cross, prOf]
      have hden : vx - ux ≠ 0 := by intro h0; linarith
      try field_simp
      try ring
    · -- u gt c, v eq c
      have hbu : isInside ⟨ux, uy⟩ c Direction.vertical Side.below = false := by
        simp [isInside, coordOf]; linarith
      have hbv : isInside ⟨vx, vy⟩ c Direction.vertical Side.below = true := by
        simp [isInside, coordOf]; linarith
      have hau : isInside ⟨ux, uy⟩ c Direction.vertical Side.above = true := by
        simp [isInside, coordOf]; linarith
      have hav : isInside ⟨vx, vy⟩ c Direction.vertical Side.above = true := by
        simp [isInside, coordOf]; linarith
      have hgg : tol12 ≤ ratAbs (vx - ux) := h.resolve_left (by intro heq; linarith)
      have hnl : ¬(ratAbs (vx - ux) < tol12) := not_lt.mpr hgg
      simp [gStar, gU, hbu, hbv, hau, hav, intersectPt, hnl, cross, prOf]
      try rw [hv]
      have hden : c - ux ≠ 0 := by intro h0; linarith
      try field_simp
      try ring
    · -- u gt c, v gt c
      have hbu : isInside ⟨ux, uy⟩ c Direction.vertical Side.below = false := by
        simp [isInside, coordOf]; linarith
      have hbv : isInside ⟨vx, vy⟩ c Direction.vertical Side.below = false := by
        simp [isInside, coordOf]; linarith
      have hau : isInside ⟨ux, uy⟩ c Direction.vertical Side.above = true := by
        simp [isInside, coordOf]; linarith
      have hav : isInside ⟨vx, vy⟩ c Direction.vertical Side.above = true := by
        simp [isInside, coordOf]; linarith
      simp [gStar, gU, hbu, hbv, hau, hav, cross, prOf]
      try ring

/-- Summed over a path, the below- and above-star sums reconstruct the path
sum of the original vertices plus one telescoped projection term. -/
lemma gStarSum_pair (c : ℚ) (d : Direction) :
    ∀ (vs : List Point) (u : Point),
      (∀ e ∈ pathPairs u vs,
        coordOf d e.1 = coordOf d e.2 ∨ tol12 ≤ ratAbs (coordOf d e.2 - coordOf d e.1)) →
      gStarSum (fun q => isInside q c d .below) (fun a b => intersectPt a b c d) (prOf c d) u vs
        + gStarSum (fun q => isInside q c d .above) (fun a b => intersectPt a b c d) (prOf c d) u vs
        = pathCross (u :: vs) + cross (prOf c d u) (prOf c d (vs.getLastD u)) := by
  intro vs
  induction vs with
  | nil =>
    intro u _
    show (0 : ℚ) + 0 = pathCross [u] + cross (prOf c d u) (prOf c d u)
    rw [pathCross_one, crossPt_self]
  | cons v vs2 ih =>
    intro u hg
    have hpair := gStar_pair c d u v
      (hg (u, v) (by show (u, v) ∈ (u, v) :: pathPairs v vs2; exact List.mem_cons_self _ _))
    have htail := ih v (fun e he => hg e
      (by show e ∈ (u, v) :: pathPairs v vs2; exact List.mem_cons_of_mem _ he))
    show gStar _ _ _ u v + gStarSum _ _ _ v vs2 + (gStar _ _ _ u v + gStarSum _ _ _ v vs2)
      = pathCross (u :: v :: vs2) + cross (prOf c d u) (prOf c d ((v :: vs2).getLastD u))
    rw [pathCross_cons₂, List.getLastD_cons]
    have hcol := onLine_col c d (prOf c d u) (prOf c d v) (prOf c d (vs2.getLastD v))
      (prOf_onLine c d u) (prOf_onLine c d v) (prOf_onLine c d _)
    linarith

lemma pathCross_snoc : ∀ (l : List Point) (x a : Point),
    pathCross (x :: l ++ [a]) = pathCross (x :: l) + cross (l.getLastD x) a := by
  intro l
  induction l with
  | nil =>
    intro x a
    show cross x a + pathCross [a] = pathCross [x] + cross x a
    rw [pathCross_one, pathCross_one]
    ring
  | cons y l2 ih =>
    intro x a
    show cross x y + pathCross (y :: l2 ++ [a])
      = pathCross (x :: y :: l2) + cross ((y :: l2).getLastD x) a
    rw [ih y a, pathCross_cons₂, List.getLastD_cons]
    ring

/-- Exact signed-area partition: when no edge of the polygon triggers the
`1e-12` interpolation guard, the below-clip and the above-clip carry
signed areas summing exactly to the polygon's signed area. -/
theorem clipPartition_signed (l : List Point) (c : ℚ) (d : Direction)
    (hg : noGuardEdges l d) :
    signedPolygonArea (clipPolygon l c d .below)
      + signedPolygonArea (clipPolygon l c d .above)
      = signedPolygonArea l := by
  by_cases h3 : l.length < 3
  · rw [clipPolygon, if_pos h3, clipPolygon, if_pos h3,
      show signedPolygonArea ([] : List Point) = 0 from rfl,
      signedPolygonArea, if_pos h3]
    ring
  · match l, hg, h3 with
    | p :: rest, hg, h3 =>
      rw [signedPolygonArea_eq_cyc, signedPolygonArea_eq_cyc, signedPolygonArea_eq_cyc,
        cyc_clipPolygon p rest c d .below hg h3, cyc_clipPolygon p rest c d .above hg h3]
      have hpair := gStarSum_pair c d (rest ++ [p]) p hg
      rw [getLastD_snoc, crossPt_self, add_zero] at hpair
      have hclose : pathCross (p :: (rest ++ [p])) = cyc (p :: rest) := by
        rw [show p :: (rest ++ [p]) = (p :: rest) ++ [p] from rfl,
          show ((p :: rest) ++ [p] : List Point) = p :: rest ++ [p] from rfl,
          pathCross_snoc rest p p]
        rfl
      rw [hclose] at hpair
      linarith

/-!
## Infrastructure: vertex-order reversal
-/

lemma pathCross_reverse : ∀ l : List Point, pathCross l.reverse = - pathCross l := by
  intro l
  induction l with
  | nil => show pathCross [] = - pathCross []; show (0 : ℚ) = -0; norm_num
  | cons a l2 ih =>
    rcases l2 with _ | ⟨b, l3⟩
    · show pathCross [a] = - pathCross [a]
      rw [pathCross_one]
      norm_num
    · have hrev : ((a :: b :: l3) : List Point).reverse = (b :: l3).reverse ++ [a] := by
        simp
      rcases hxe : ((b :: l3) : List Point).reverse with _ | ⟨x, xs⟩
      · have := congrArg List.length hxe
        simp at this
      · have hpc : pathCross (x :: xs) = - pathCross (b :: l3) := by
          rw [← hxe]; exact ih
        have hlast : xs.getLastD x = b := by
          have h1 : ((b :: l3) : List Point).reverse.getLastD x = b := by
            rw [List.getLastD_eq_getLast?, List.getLast?_reverse]
            rfl
          rw [hxe, List.getLastD_cons] at h1
          exact h1
        rw [hrev, hxe, show ((x :: xs) ++ [a] : List Point) = x :: xs ++ [a] from rfl,
          pathCross_snoc xs x a, hpc, hlast, pathCross_cons₂, crossPt_antisymm]
        ring

lemma cons_getLast? : ∀ (rest : List Point) (p : Point),
    (p :: rest).getLast? = some (rest.getLastD p) := by
  intro rest
  induction rest with
  | nil => intro p; rfl
  | cons r rs ih =>
    intro p
    rw [List.getLast?_cons_cons, ih r, List.getLastD_cons]

lemma cyc_reverse (l : List Point) : cyc l.reverse = - cyc l := by
  rcases l with _ | ⟨p, rest⟩
  · show (0 : ℚ) = -0; norm_num
  · rcases hxe : ((p :: rest) : List Point).reverse with _ | ⟨q, ms⟩
    · have := congrArg List.length hxe
      simp at this
    · have hq : q = rest.getLastD p := by
        have h1 : ((p :: rest) : List Point).reverse.head? = some q := by rw [hxe]; rfl
        rw [List.head?_reverse, cons_getLast?] at h1
        exact (Option.some.inj h1).symm
      have hms : ms.getLastD q = p := by
        have h1 : ((p :: rest) : List Point).reverse.getLastD q = p := by
          rw [List.getLastD_eq_getLast?, List.getLast?_reverse]
          rfl
        rw [hxe, List.getLastD_cons] at h1
        exact h1
      show pathCross (q :: ms) + cross (ms.getLastD q) q
        = -(pathCross (p :: rest) + cross (rest.getLastD p) p)
      have hpc : pathCross (q :: ms) = - pathCross (p :: rest) := by
        rw [← hxe]; exact pathCross_reverse _
      rw [hpc, hms, hq, crossPt_antisymm]
      ring

lemma signedPolygonArea_reverse (l : List Point) :
    signedPolygonArea l.reverse = - signedPolygonArea l := by
  rw [signedPolygonArea_eq_cyc, signedPolygonArea_eq_cyc, cyc_reverse]
  ring

lemma ratAbs_eq_abs (q : ℚ) : ratAbs q = |q| := by
  unfold ratAbs
  rcases lt_or_le q 0 with h | h
  · rw [if_pos h, abs_of_neg h]
  · rw [if_neg (not_lt.mpr h), abs_of_nonneg h]

lemma polygonArea_reverse (l : List Point) : polygonArea l.reverse = polygonArea l := by
  unfold polygonArea
  rw [ratAbs_eq_abs, ratAbs_eq_abs, signedPolygonArea_reverse, abs_neg]

lemma polygonArea_ensureCCW (l : List Point) : polygonArea (ensureCCW l) = polygonArea l := by
  unfold ensureCCW
  split
  · exact polygonArea_reverse l
  · rfl

lemma polygonArea_ensureCW (l : List Point) : polygonArea (ensureCW l) = polygonArea l := by
  unfold ensureCW
  split
  · exact polygonArea_reverse l
  · rfl

/-!
## Infrastructure: the bisection loop
-/

/-- Midpoint of a bracket. -/
def midOf (s : ℚ × ℚ) : ℚ := (s.1 + s.2) / 2

/-- One bracket-narrowing step of the `findPNA` loop. -/
def pnaStep (outer : List Point) (holes : List (List Point)) (halfArea : ℚ)
    (direction : Direction) (s : ℚ × ℚ) : ℚ × ℚ :=
  if computeAreaOneSide outer holes (midOf s) direction .below < halfArea then (midOf s, s.2)
  else (s.1, midOf s)

/-- The convergence test of the `findPNA` loop at a bracket. -/
def pnaConverged (outer : List Point) (holes : List (List Point)) (halfArea tolA : ℚ)
    (direction : Direction) (s : ℚ × ℚ) : Prop :=
  ratAbs (computeAreaOneSide outer holes (midOf s) direction .below - halfArea) < tolA

theorem findPNAGo_spec (outer : List Point) (holes : List (List Point))
    (halfArea totalArea : ℚ) (direction : Direction) :
    ∀ (fuel : ℕ) (lo hi : ℚ),
      (∃ k, k < fuel
        ∧ pnaConverged outer holes halfArea (totalArea * tol10) direction
            ((pnaStep outer holes halfArea direction)^[k] (lo, hi))
        ∧ (∀ j, j < k → ¬ pnaConverged outer holes halfArea (totalArea * tol10) direction
            ((pnaStep outer holes halfArea direction)^[j] (lo, hi)))
        ∧ findPNAGo outer holes halfArea totalArea direction fuel lo hi
            = midOf ((pnaStep outer holes halfArea direction)^[k] (lo, hi)))
      ∨ ((∀ j, j < fuel → ¬ pnaConverged outer holes halfArea (totalArea * tol10) direction
            ((pnaStep outer holes halfArea direction)^[j] (lo, hi)))
        ∧ findPNAGo outer holes halfArea totalArea direction fuel lo hi
            = midOf ((pnaStep outer holes halfArea direction)^[fuel] (lo, hi))) := by
  intro fuel
  induction fuel with
  | zero =>
    intro lo hi
    right
    exact ⟨fun j hj => absurd hj (Nat.not_lt_zero j), rfl⟩
  | succ fuel ih =>
    intro lo hi
    by_cases hc : pnaConverged outer holes halfArea (totalArea * tol10) direction (lo, hi)
    · left
      refine ⟨0, Nat.succ_pos fuel, by simpa using hc, fun j hj => absurd hj (Nat.not_lt_zero j), ?_⟩
      rw [Function.iterate_zero_apply]
      show findPNAGo outer holes halfArea totalArea direction (fuel + 1) lo hi = midOf (lo, hi)
      rw [findPNAGo, if_pos (by exact hc)]
      rfl
    · have hrec : findPNAGo outer holes halfArea totalArea direction (fuel + 1) lo hi
          = findPNAGo outer holes halfArea totalArea direction fuel
              (pnaStep outer holes halfArea direction (lo, hi)).1
              (pnaStep outer holes halfArea direction (lo, hi)).2 := by
        rw [findPNAGo, if_neg (by exact hc)]
        by_cases hlt : computeAreaOneSide outer holes ((lo + hi) / 2) direction .below < halfArea
        · rw [if_pos hlt, pnaStep, if_pos (by exact hlt)]
          rfl
        · rw [if_neg hlt, pnaStep, if_neg (by exact hlt)]
          rfl
      have hiter : ∀ k : ℕ,
          (pnaStep outer holes halfArea direction)^[k]
            ((pnaStep outer holes halfArea direction (lo, hi)).1,
             (pnaStep outer holes halfArea direction (lo, hi)).2)
          = (pnaStep outer holes halfArea direction)^[k + 1] (lo, hi) := by
        intro k
        rw [Function.iterate_succ_apply]
      rcases ih (pnaStep outer holes halfArea direction (lo, hi)).1
          (pnaStep outer holes halfArea direction (lo, hi)).2 with
        ⟨k, hk, hkc, hknc, hkeq⟩ | ⟨hnc, heq⟩
      · left
        refine ⟨k + 1, by omega, by rwa [hiter k] at hkc, ?_, by rw [hrec, hkeq, hiter k]⟩
        intro j hj
        cases j with
        | zero => simpa using hc
        | succ j2 =>
          have := hknc j2 (by omega)
          rwa [hiter j2] at this
      · right
        refine ⟨?_, by rw [hrec, heq, hiter fuel]⟩
        intro j hj
        cases j with
        | zero => simpa using hc
        | succ j2 =>
          have := hnc j2 (by omega)
          rwa [hiter j2] at this

theorem findPNAGo_bounds (outer : List Point) (holes : List (List Point))
    (halfArea totalArea : ℚ) (direction : Direction) :
    ∀ (fuel : ℕ) (lo hi : ℚ), lo ≤ hi →
      lo ≤ findPNAGo outer holes halfArea totalArea direction fuel lo hi
      ∧ findPNAGo outer holes halfArea totalArea direction fuel lo hi ≤ hi := by
  intro fuel
  induction fuel with
  | zero =>
    intro lo hi hle
    show lo ≤ (lo + hi) / 2 ∧ (lo + hi) / 2 ≤ hi
    constructor <;> linarith
  | succ fuel ih =>
    intro lo hi hle
    rw [findPNAGo]
    split
    · constructor <;> (show _; linarith)
    · split
      · have hmid : lo ≤ (lo + hi) / 2 := by linarith
        have := ih ((lo + hi) / 2) hi (by linarith)
        exact ⟨le_trans hmid this.1, this.2⟩
      · have hmid : (lo + hi) / 2 ≤ hi := by linarith
        have := ih lo ((lo + hi) / 2) (by linarith)
        exact ⟨this.1, le_trans this.2 hmid⟩

/-!
## Supporting lemmas for the claims
-/

/-- Net area of a cross-sectional region computed directly on the raw
(unnormalised) vertex lists; winding normalisation does not change it. -/
def netAreaRaw (sec : CrossSection) : ℚ :=
  sec.holes.foldl (fun a h => a - polygonArea h) (polygonArea sec.outerBoundary)

lemma foldl_sub_map_ensureCW : ∀ (hs : List (List Point)) (init : ℚ),
    (hs.map ensureCW).foldl (fun a h => a - polygonArea h) init
    = hs.foldl (fun a h => a - polygonArea h) init := by
  intro hs
  induction hs with
  | nil => intro init; rfl
  | cons h hs ih =>
    intro init
    show (hs.map ensureCW).foldl _ (init - polygonArea (ensureCW h)) = _
    rw [polygonArea_ensureCW, ih]
    rfl

lemma netElasticArea_eq_raw (sec : CrossSection) : netElasticArea sec = netAreaRaw sec := by
  unfold netElasticArea netAreaRaw normHoles normOuter
  rw [foldl_sub_map_ensureCW, polygonArea_ensureCCW]

lemma computeNetArea_norm_eq_raw (sec : CrossSection) :
    computeNetArea (normOuter sec) (normHoles sec) = netAreaRaw sec := by
  unfold computeNetArea netAreaRaw normHoles normOuter
  rw [foldl_sub_map_ensureCW, polygonArea_ensureCCW]

lemma polygonArea_nonneg (l : List Point) : 0 ≤ polygonArea l := by
  rw [polygonArea, ratAbs_eq_abs]
  exact abs_nonneg _

lemma foldl_sub_le_init : ∀ (hs : List (List Point)) (init : ℚ),
    hs.foldl (fun a h => a - polygonArea h) init ≤ init := by
  intro hs
  induction hs with
  | nil => intro init; exact le_refl init
  | cons h hs ih =>
    intro init
    show hs.foldl _ (init - polygonArea h) ≤ init
    calc hs.foldl (fun a h => a - polygonArea h) (init - polygonArea h)
        ≤ init - polygonArea h := ih _
      _ ≤ init := by linarith [polygonArea_nonneg h]

lemma polygonArea_short (l : List Point) (h : l.length < 3) : polygonArea l = 0 := by
  unfold polygonArea
  rw [signedPolygonArea, if_pos h, ratAbs_eq_abs, abs_zero]

lemma foldMin_le_foldMax (f : Point → ℚ) (p : Point) (ps : List Point) :
    foldMin f (p :: ps) ≤ foldMax f (p :: ps) := by
  have hmin : ∀ (qs : List Point) (init : ℚ),
      qs.foldl (fun acc q => min acc (f q)) init ≤ init := by
    intro qs
    induction qs with
    | nil => intro init; exact le_refl init
    | cons q qs ih =>
      intro init
      calc qs.foldl (fun acc r => min acc (f r)) (min init (f q))
          ≤ min init (f q) := ih _
        _ ≤ init := min_le_left _ _
  have hmax : ∀ (qs : List Point) (init : ℚ),
      init ≤ qs.foldl (fun acc q => max acc (f q)) init := by
    intro qs
    induction qs with
    | nil => intro init; exact le_refl init
    | cons q qs ih =>
      intro init
      calc init ≤ max init (f q) := le_max_left _ _
        _ ≤ qs.foldl (fun acc r => max acc (f r)) (max init (f q)) := ih _
  calc foldMin f (p :: ps) ≤ f p := hmin ps (f p)
    _ ≤ foldMax f (p :: ps) := hmax ps (f p)

lemma allVerts_decomp (sec : CrossSection)
    (h : tol12 ≤ computeNetArea (normOuter sec) (normHoles sec)) :
    ∃ p ps, allVerts sec = p :: ps := by
  have htol : (0 : ℚ) < tol12 := by norm_num [tol12]
  have h1 : tol12 ≤ polygonArea (normOuter sec) :=
    le_trans h (foldl_sub_le_init (normHoles sec) (polygonArea (normOuter sec)))
  have h2 : ¬ (normOuter sec).length < 3 := by
    intro hlt
    rw [polygonArea_short _ hlt] at h1
    linarith
  rcases hn : normOuter sec with _ | ⟨p, ps⟩
  · rw [hn] at h2
    exact absurd (by norm_num : ([] : List Point).length < 3) h2
  · refine ⟨p, ps ++ (normHoles sec).flatten, ?_⟩
    rw [allVerts, hn]
    rfl

lemma bboxMin_le_bboxMax (sec : CrossSection) (d : Direction)
    (h : tol12 ≤ computeNetArea (normOuter sec) (normHoles sec)) :
    bboxMin sec d ≤ bboxMax sec d := by
  obtain ⟨p, ps, hv⟩ := allVerts_decomp sec h
  rw [bboxMin, bboxMax, hv]
  exact foldMin_le_foldMax (coordOf d) p ps

/-!
## The claims
-/

/-- C4: for every cross-sectional region, the `ElasticProperties` returned by
`computeElasticProperties` satisfies `Ix_principal ≥ Iy_principal`: either
the degenerate all-zero record is returned, or the two principal moments are
`Iavg ± √(Idiff² + Ixy²)` with a nonnegative square root. -/
theorem C4_principal_order (sec : CrossSection) :
    (computeElasticProperties sec).Iy_principal ≤ (computeElasticProperties sec).Ix_principal := by
  unfold computeElasticProperties
  split
  · exact le_refl (0 : ℝ)
  · show (IavgE sec : ℝ) - Real.sqrt ((IdiffE sec ^ 2 + IxyE sec ^ 2 : ℚ) : ℝ)
      ≤ (IavgE sec : ℝ) + Real.sqrt ((IdiffE sec ^ 2 + IxyE sec ^ 2 : ℚ) : ℝ)
    have := Real.sqrt_nonneg (((IdiffE sec ^ 2 + IxyE sec ^ 2 : ℚ) : ℝ))
    linarith

/-- C5: a cross-sectional region whose net area (outer area minus the sum of
hole areas) has absolute value below `1e-12` produces the all-zero
`ElasticProperties` record and the all-zero `PlasticProperties` record. -/
theorem C5_zero_area (sec : CrossSection) (h : |netAreaRaw sec| < tol12) :
    computeElasticProperties sec = zeroElasticProps
    ∧ computePlasticProperties sec = ⟨0, 0, 0, 0⟩ := by
  have h1 : netElasticArea sec < tol12 := by
    rw [netElasticArea_eq_raw]
    calc netAreaRaw sec ≤ |netAreaRaw sec| := le_abs_self _
      _ < tol12 := h
  have h2 : computeNetArea (normOuter sec) (normHoles sec) < tol12 := by
    rw [computeNetArea_norm_eq_raw]
    calc netAreaRaw sec ≤ |netAreaRaw sec| := le_abs_self _
      _ < tol12 := h
  constructor
  · unfold computeElasticProperties
    rw [if_pos h1]
  · show (if computeNetArea (normOuter sec) (normHoles sec) < tol12 then
        (⟨0, 0, 0, 0⟩ : PlasticProperties)
      else _) = (⟨0, 0, 0, 0⟩ : PlasticProperties)
    rw [if_pos h2]

/-- Degenerate region used as witness input: three collinear vertices. -/
def witSec5 : CrossSection := ⟨[⟨0, 0⟩, ⟨1, 0⟩, ⟨2, 0⟩], []⟩

/-- C6: each section modulus is zero whenever the corresponding extreme-fiber
distance from the centroid has magnitude at most `1e-12`; the guarded
division in the source never divides by a near-zero distance. -/
theorem C6_moduli_guard (sec : CrossSection) :
    (|yMaxDist sec| ≤ tol12 → (computeElasticProperties sec).Sx_top = 0)
    ∧ (|yMinDist sec| ≤ tol12 → (computeElasticProperties sec).Sx_bot = 0)
    ∧ (|xMinDist sec| ≤ tol12 → (computeElasticProperties sec).Sy_left = 0)
    ∧ (|xMaxDist sec| ≤ tol12 → (computeElasticProperties sec).Sy_right = 0) := by
  unfold computeElasticProperties
  split
  · exact ⟨fun _ => rfl, fun _ => rfl, fun _ => rfl, fun _ => rfl⟩
  · refine ⟨fun h => ?_, fun h => ?_, fun h => ?_, fun h => ?_⟩
    · show (if tol12 < ratAbs (yMaxDist sec) then IxE sec / ratAbs (yMaxDist sec) else 0) = 0
      rw [if_neg (not_lt.mpr (by rw [ratAbs_eq_abs]; exact h))]
    · show (if tol12 < ratAbs (yMinDist sec) then IxE sec / ratAbs (yMinDist sec) else 0) = 0
      rw [if_neg (not_lt.mpr (by rw [ratAbs_eq_abs]; exact h))]
    · show (if tol12 < ratAbs (xMinDist sec) then IyE sec / ratAbs (xMinDist sec) else 0) = 0
      rw [if_neg (not_lt.mpr (by rw [ratAbs_eq_abs]; exact h))]
    · show (if tol12 < ratAbs (xMaxDist sec) then IyE sec / ratAbs (xMaxDist sec) else 0) = 0
      rw [if_neg (not_lt.mpr (by rw [ratAbs_eq_abs]; exact h))]

/-- Fully collapsed region used as witness input for C6. -/
def witSec6 : CrossSection := ⟨[⟨0, 0⟩, ⟨0, 0⟩, ⟨0, 0⟩], []⟩

/-- C7: every polygon-algebra primitive returns its zero value on a vertex
list with fewer than 3 points, and the clipper returns the empty output. -/
theorem C7_degenerate_inputs (l : List Point) (h : l.length < 3) :
    signedPolygonArea l = 0 ∧ polygonArea l = 0 ∧ polygonIxOrigin l = 0
    ∧ polygonIyOrigin l = 0 ∧ polygonIxyOrigin l = 0 ∧ polygonCentroid l = originPt
    ∧ ∀ (c : ℚ) (d : Direction) (s : Side), clipPolygon l c d s = [] := by
  refine ⟨?_, polygonArea_short l h, ?_, ?_, ?_, ?_, fun c d s => ?_⟩
  · rw [signedPolygonArea, if_pos h]
  · rw [polygonIxOrigin, if_pos h]
  · rw [polygonIyOrigin, if_pos h]
  · rw [polygonIxyOrigin, if_pos h]
  · rw [polygonCentroid, if_pos h]
  · rw [clipPolygon, if_pos h]

/-- Witness for C7 at a concrete 2-point list. -/
theorem C7_degenerate_inputs_witness :
    (([⟨0, 0⟩, ⟨3, 7⟩] : List Point).length < 3)
    ∧ signedPolygonArea [⟨0, 0⟩, ⟨3, 7⟩] = 0
    ∧ polygonArea [⟨0, 0⟩, ⟨3, 7⟩] = 0
    ∧ polygonCentroid [⟨0, 0⟩, ⟨3, 7⟩] = originPt
    ∧ clipPolygon [⟨0, 0⟩, ⟨3, 7⟩] 1 .horizontal .below = [] :=
  ⟨by decide,
   (C7_degenerate_inputs _ (by decide)).1,
   (C7_degenerate_inputs _ (by decide)).2.1,
   (C7_degenerate_inputs _ (by decide)).2.2.2.2.2.1,
   (C7_degenerate_inputs _ (by decide)).2.2.2.2.2.2 1 .horizontal .below⟩

/-- C8: `ensureCCW` returns its input unchanged when the signed area is
nonnegative and the reversed list when it is negative, so its result always
has nonnegative signed area; `ensureCW` is the mirror image. -/
theorem C8_winding_normalisation (V : List Point) :
    ensureCCW V = (if signedPolygonArea V < 0 then V.reverse else V)
    ∧ 0 ≤ signedPolygonArea (ensureCCW V)
    ∧ ensureCW V = (if 0 < signedPolygonArea V then V.reverse else V)
    ∧ signedPolygonArea (ensureCW V) ≤ 0 := by
  refine ⟨rfl, ?_, rfl, ?_⟩
  · unfold ensureCCW
    split
    next hneg => rw [signedPolygonArea_reverse]; linarith
    next hpos => linarith [not_lt.mp hpos]
  · unfold ensureCW
    split
    next hpos => rw [signedPolygonArea_reverse]; linarith
    next hneg => linarith [not_lt.mp hneg]

/-- C2 (amended): the clipped fragments partition the polygon exactly at the
level of signed areas whenever no cyclic edge of the polygon triggers the
`1e-12` interpolation guard of `intersectPt` (each edge either has equal
cut-direction coordinates at its two ends or a coordinate gap of at least
`1e-12`); and when both fragments come out with nonnegative signed area
(as they do for counter-clockwise input) the unsigned areas add up as well. -/
theorem C2_clip_partition (l : List Point) (c : ℚ) (d : Direction)
    (hg : noGuardEdges l d) :
    signedPolygonArea (clipPolygon l c d .below)
        + signedPolygonArea (clipPolygon l c d .above)
      = signedPolygonArea l
    ∧ (0 ≤ signedPolygonArea (clipPolygon l c d .below)
       → 0 ≤ signedPolygonArea (clipPolygon l c d .above)
       → polygonArea (clipPolygon l c d .below) + polygonArea (clipPolygon l c d .above)
         = polygonArea l) := by
  have hs := clipPartition_signed l c d hg
  refine ⟨hs, fun hb ha => ?_⟩
  rw [polygonArea, polygonArea, polygonArea, ratAbs_eq_abs, ratAbs_eq_abs, ratAbs_eq_abs,
    abs_of_nonneg hb, abs_of_nonneg ha, ← hs, abs_of_nonneg (by linarith)]

/-- C3: the plastic-neutral-axis search is a bisection with a hard fuel of
100 steps.  `findPNA` either returns the midpoint of the first iterate of
the bracket-narrowing step `pnaStep` at which the convergence test
`pnaConverged` (that is, `|areaBelow - totalArea/2| < totalArea * 1e-10`)
holds, reached within fewer than 100 steps, or — when no iterate below the
cap converges — returns the midpoint of the bracket after exactly 100 steps;
running out of fuel produces a value, never an error. -/
theorem C3_bisection_termination (outer : List Point) (holes : List (List Point))
    (totalArea minVal maxVal : ℚ) (direction : Direction) :
    (∃ k, k < 100
      ∧ pnaConverged outer holes (totalArea / 2) (totalArea * tol10) direction
          ((pnaStep outer holes (totalArea / 2) direction)^[k] (minVal, maxVal))
      ∧ (∀ j, j < k → ¬ pnaConverged outer holes (totalArea / 2) (totalArea * tol10) direction
          ((pnaStep outer holes (totalArea / 2) direction)^[j] (minVal, maxVal)))
      ∧ findPNA outer holes totalArea minVal maxVal direction
          = midOf ((pnaStep outer holes (totalArea / 2) direction)^[k] (minVal, maxVal)))
    ∨ ((∀ j, j < 100 → ¬ pnaConverged outer holes (totalArea / 2) (totalArea * tol10) direction
          ((pnaStep outer holes (totalArea / 2) direction)^[j] (minVal, maxVal)))
      ∧ findPNA outer holes totalArea minVal maxVal direction
          = midOf ((pnaStep outer holes (totalArea / 2) direction)^[100] (minVal, maxVal))) :=
  findPNAGo_spec outer holes (totalArea / 2) totalArea direction 100 minVal maxVal

lemma findPNA_bounds (outer : List Point) (holes : List (List Point))
    (totalArea minVal maxVal : ℚ) (direction : Direction) (h : minVal ≤ maxVal) :
    minVal ≤ findPNA outer holes totalArea minVal maxVal direction
    ∧ findPNA outer holes totalArea minVal maxVal direction ≤ maxVal :=
  findPNAGo_bounds outer holes (totalArea / 2) totalArea direction 100 minVal maxVal h

/-- C10 (amended): any `findPNA` call whose bracket is ordered returns a
value inside the bracket; and for a region whose normalised net area reaches
the `1e-12` threshold (so that `computePlasticProperties` actually runs the
bisection instead of returning the all-zero record) the plastic neutral
axes lie inside the vertex bounding box of the region. -/
theorem C10_pna_range (outer : List Point) (holes : List (List Point))
    (totalArea minVal maxVal : ℚ) (direction : Direction) (sec : CrossSection)
    (hmm : minVal ≤ maxVal)
    (hsec : tol12 ≤ computeNetArea (normOuter sec) (normHoles sec)) :
    (minVal ≤ findPNA outer holes totalArea minVal maxVal direction
     ∧ findPNA outer holes totalArea minVal maxVal direction ≤ maxVal)
    ∧ (bboxMin sec .horizontal ≤ (computePlasticProperties sec).pnaX
       ∧ (computePlasticProperties sec).pnaX ≤ bboxMax sec .horizontal
       ∧ bboxMin sec .vertical ≤ (computePlasticProperties sec).pnaY
       ∧ (computePlasticProperties sec).pnaY ≤ bboxMax sec .vertical) := by
  refine ⟨findPNA_bounds outer holes totalArea minVal maxVal direction hmm, ?_⟩
  have hb1 := bboxMin_le_bboxMax sec Direction.horizontal hsec
  have hb2 := bboxMin_le_bboxMax sec Direction.vertical hsec
  have hplast : computePlasticProperties sec
      = ⟨findPNA (normOuter sec) (normHoles sec)
            (computeNetArea (normOuter sec) (normHoles sec))
            (bboxMin sec .horizontal) (bboxMax sec .horizontal) .horizontal,
         findPNA (normOuter sec) (normHoles sec)
            (computeNetArea (normOuter sec) (normHoles sec))
            (bboxMin sec .vertical) (bboxMax sec .vertical) .vertical,
         computePlasticModulus (normOuter sec) (normHoles sec)
            (findPNA (normOuter sec) (normHoles sec)
              (computeNetArea (normOuter sec) (normHoles sec))
              (bboxMin sec .horizontal) (bboxMax sec .horizontal) .horizontal) .horizontal,
         computePlasticModulus (normOuter sec) (normHoles sec)
            (findPNA (normOuter sec) (normHoles sec)
              (computeNetArea (normOuter sec) (normHoles sec))
              (bboxMin sec .vertical) (bboxMax sec .vertical) .vertical) .vertical⟩ := by
    show (if computeNetArea (normOuter sec) (normHoles sec) < tol12 then
        (⟨0, 0, 0, 0⟩ : PlasticProperties)
      else _) = _
    rw [if_neg (not_lt.mpr hsec)]
  rw [hplast]
  exact ⟨(findPNA_bounds _ _ _ _ _ _ hb1).1, (findPNA_bounds _ _ _ _ _ _ hb1).2,
    (findPNA_bounds _ _ _ _ _ _ hb2).1, (findPNA_bounds _ _ _ _ _ _ hb2).2⟩

/-!
## Concrete instances

The theorems below evaluate the embedded engine on concrete inputs by
kernel reduction.  Batteries marks the `Rat` arithmetic operations
`irreducible`; the local attribute restores reducibility inside this
section so that `decide` can evaluate them.
-/

section RatEval

attribute [local semireducible] Rat.add Rat.mul Rat.sub Rat.inv Rat.ofScientific

set_option maxRecDepth 1000000

/-- The 10 × 8 rectangle region of the end-to-end scenario. -/
def rectSec : CrossSection := ⟨[⟨0, 0⟩, ⟨10, 0⟩, ⟨10, 8⟩, ⟨0, 8⟩], []⟩

/-- C1: on the rectangle (0,0)-(10,0)-(10,8)-(0,8) with no holes the full
pipeline returns area 80, centroid (5,4), Ix = 1280/3, Iy = 2000/3,
Ixy = 0, Sx_top = Sx_bot = 320/3, Sy_left = Sy_right = 400/3, Zx = 160,
Zy = 200, pnaX = 4 and pnaY = 5.  (The three real-valued fields produced
through square roots and arctangents are not part of the claim.) -/
theorem C1_rectangle_end_to_end :
    (computeSectionProperties rectSec).elastic.area = 80
    ∧ (computeSectionProperties rectSec).elastic.centroidX = 5
    ∧ (computeSectionProperties rectSec).elastic.centroidY = 4
    ∧ (computeSectionProperties rectSec).elastic.Ix = 1280 / 3
    ∧ (computeSectionProperties rectSec).elastic.Iy = 2000 / 3
    ∧ (computeSectionProperties rectSec).elastic.Ixy = 0
    ∧ (computeSectionProperties rectSec).elastic.Sx_top = 320 / 3
    ∧ (computeSectionProperties rectSec).elastic.Sx_bot = 320 / 3
    ∧ (computeSectionProperties rectSec).elastic.Sy_left = 400 / 3
    ∧ (computeSectionProperties rectSec).elastic.Sy_right = 400 / 3
    ∧ (computeSectionProperties rectSec).plastic.Zx = 160
    ∧ (computeSectionProperties rectSec).plastic.Zy = 200
    ∧ (computeSectionProperties rectSec).plastic.pnaX = 4
    ∧ (computeSectionProperties rectSec).plastic.pnaY = 5 := by
  decide

/-- Half the `1e-12` interpolation-guard threshold gap, `1e-13`. -/
def aTiny : ℚ := 1 / 10000000000000

/-- A simple six-vertex polygon whose edge from `(10, 1 - 1e-13)` to
`(20, 1 + 1e-13)` crosses the cut line `y = 1` with a coordinate gap of
`2e-13 < 1e-12`, so the interpolation guard in `intersectPt` fires and
returns the edge start instead of the true crossing point.  All vertices
lie strictly above the closing edge from `(50, 1/2)` back to `(0, 0)`, so
the boundary is simple. -/
def cexC2 : List Point :=
  [⟨0, 0⟩, ⟨10, 1 - aTiny⟩, ⟨20, 1 + aTiny⟩, ⟨30, 1/2⟩, ⟨40, 2⟩, ⟨50, 1/2⟩]

/-- C2 (counterexample): on the simple polygon `cexC2`, cut at `y = 1`, the
unsigned areas of the two clipped fragments do not sum to the area of the
polygon — the `1e-12` interpolation guard replaces one crossing point by an
edge endpoint and the partition misses a sliver of area, decided here by
exact rational evaluation. -/
theorem C2_clip_partition_counterexample :
    polygonArea (clipPolygon cexC2 1 .horizontal .below)
      + polygonArea (clipPolygon cexC2 1 .horizontal .above)
      ≠ polygonArea cexC2 := by
  decide

/-- Witness for C2 at the rectangle boundary cut at mid-height. -/
theorem C2_clip_partition_witness :
    noGuardEdges rectSec.outerBoundary Direction.horizontal
    ∧ polygonArea (clipPolygon rectSec.outerBoundary 4 .horizontal .below)
        + polygonArea (clipPolygon rectSec.outerBoundary 4 .horizontal .above)
      = polygonArea rectSec.outerBoundary :=
  ⟨by decide,
   (C2_clip_partition rectSec.outerBoundary 4 .horizontal (by decide)).2
     (by decide) (by decide)⟩

/-- Witness for C5 at a concrete degenerate region (three collinear
vertices, zero net area). -/
theorem C5_zero_area_witness :
    |netAreaRaw witSec5| < tol12
    ∧ computeElasticProperties witSec5 = zeroElasticProps
    ∧ computePlasticProperties witSec5 = ⟨0, 0, 0, 0⟩ :=
  have h : |netAreaRaw witSec5| < tol12 := by
    rw [show netAreaRaw witSec5 = 0 from by decide, abs_zero]
    decide
  ⟨h, (C5_zero_area witSec5 h).1, (C5_zero_area witSec5 h).2⟩

/-- Witness for C6 at a concrete region with all four extreme-fiber
distances equal to zero. -/
theorem C6_moduli_guard_witness :
    |yMaxDist witSec6| ≤ tol12
    ∧ (computeElasticProperties witSec6).Sx_top = 0
    ∧ (computeElasticProperties witSec6).Sx_bot = 0
    ∧ (computeElasticProperties witSec6).Sy_left = 0
    ∧ (computeElasticProperties witSec6).Sy_right = 0 :=
  have hy1 : |yMaxDist witSec6| ≤ tol12 := by
    rw [show yMaxDist witSec6 = 0 from by decide, abs_zero]
    decide
  have hy2 : |yMinDist witSec6| ≤ tol12 := by
    rw [show yMinDist witSec6 = 0 from by decide, abs_zero]
    decide
  have hx1 : |xMinDist witSec6| ≤ tol12 := by
    rw [show xMinDist witSec6 = 0 from by decide, abs_zero]
    decide
  have hx2 : |xMaxDist witSec6| ≤ tol12 := by
    rw [show xMaxDist witSec6 = 0 from by decide, abs_zero]
    decide
  ⟨hy1, (C6_moduli_guard witSec6).1 hy1, (C6_moduli_guard witSec6).2.1 hy2,
   (C6_moduli_guard witSec6).2.2.1 hx1, (C6_moduli_guard witSec6).2.2.2 hx2⟩

/-- A degenerate region (three collinear vertices on the line `y = 5`)
whose net area is below the `1e-12` threshold: `computePlasticProperties`
skips the bisection and returns the all-zero record. -/
def witSec10 : CrossSection := ⟨[⟨0, 5⟩, ⟨1, 5⟩, ⟨2, 5⟩], []⟩

/-- C10 (counterexample): on the degenerate region `witSec10` the returned
`pnaX = 0` lies outside the vertex range `[5, 5]` of the cut coordinate, so
the unconditional claim that the plastic neutral axes always lie within the
vertex bounding box fails. -/
theorem C10_pna_range_counterexample :
    ¬ (bboxMin witSec10 .horizontal ≤ (computePlasticProperties witSec10).pnaX
       ∧ (computePlasticProperties witSec10).pnaX ≤ bboxMax witSec10 .horizontal) := by
  decide

/-- Witness for C10 at the rectangle region and a concrete ordered bracket. -/
theorem C10_pna_range_witness :
    ((0 : ℚ) ≤ findPNA rectSec.outerBoundary [] 80 0 8 Direction.horizontal
     ∧ findPNA rectSec.outerBoundary [] 80 0 8 Direction.horizontal ≤ 8)
    ∧ (bboxMin rectSec .horizontal ≤ (computePlasticProperties rectSec).pnaX
       ∧ (computePlasticProperties rectSec).pnaX ≤ bboxMax rectSec .horizontal
       ∧ bboxMin rectSec .vertical ≤ (computePlasticProperties rectSec).pnaY
       ∧ (computePlasticProperties rectSec).pnaY ≤ bboxMax rectSec .vertical) :=
  C10_pna_range rectSec.outerBoundary [] 80 0 8 Direction.horizontal rectSec
    (by norm_num) (by decide)

end RatEval
